import Mathlib

/-!
Verification of the emergency-dispatch Dijkstra repository.

The development shallowly embeds the algorithmic core of the repository:

* `dijkstra_generator` from src/animation.py (lines 53-92) and src/upgrade.py
  (lines 66-104): the observable single-source Dijkstra search that yields
  the events `("visit", u)`, `("relax", v)`, `("done", path)`, `("no_path", None)`.
* `dijkstra_shortest_path`, `compute_distance_matrix`,
  `find_best_partition_and_routes`, `find_best_route_order` and
  `build_full_path` from src/multiemergency.py.

Python floats are modelled as rationals, `float("inf")` as `none`, the
`heapq` binary heap as a list kept sorted by the tuple order on
`(distance, node)` (popping a binary heap returns the least tuple, and equal
tuples are indistinguishable, so the sorted list has exactly the observable
pop behaviour of the heap).  Node identifiers are natural numbers.
-/

set_option maxHeartbeats 1600000

namespace EmergencyDijkstra

/-- Search events produced by `dijkstra_generator`: the Python generator
yields `("visit", u)`, `("relax", v)`, `("done", path)` and
`("no_path", None)`. -/
inductive Event where
  | visit (u : Nat) : Event
  | relax (v : Nat) : Event
  | done (path : List Nat) : Event
  | noPath : Event
deriving DecidableEq, Repr

/-- The external weighted-graph collaborator: a node list, a neighbor
iteration `adj` (the order of `G.neighbors(u)`), and the effective edge
weight `w` (the Python call sites read the `length` attribute, taking the
minimum over parallel edges of the multigraph with default `1.0`; that
collapsing is part of the collaborator, so `w` is the collapsed weight). -/
structure Graph where
  nodes : List Nat
  adj : Nat → List Nat
  w : Nat → Nat → ℚ

/-- Well-formedness of the graph collaborator: neighbors of nodes are
nodes, and edge weights are non-negative (road segment lengths). -/
structure WF (g : Graph) : Prop where
  adjClosed : ∀ u ∈ g.nodes, ∀ v ∈ g.adj u, v ∈ g.nodes
  wNonneg : ∀ u v, 0 ≤ g.w u v

/-- Reachability along the neighbor structure, the graph-level notion used
to state the claims about reachable and unreachable destinations. -/
inductive Reach (g : Graph) (start : Nat) : Nat → Prop where
  | refl : Reach g start start
  | step {u v : Nat} : Reach g start u → v ∈ g.adj u → Reach g start v

/-- Comparison of a rational against an optional rational where `none`
plays the role of `float("inf")`: this is the test `nd < dist[v]`. -/
def ltOpt (q : ℚ) : Option ℚ → Bool
  | none => true
  | some d => decide (q < d)

/-- The Python tuple order on heap entries `(distance, node)`. -/
def pqLe (a b : ℚ × Nat) : Bool :=
  decide (a.1 < b.1) || (decide (a.1 = b.1) && decide (a.2 ≤ b.2))

/-- `heapq.heappush`: insertion keeping the frontier list sorted by the
tuple order, so that the head is always the entry `heapq.heappop` returns. -/
def pqInsert (x : ℚ × Nat) : List (ℚ × Nat) → List (ℚ × Nat)
  | [] => [x]
  | y :: ys => if pqLe x y then x :: y :: ys else y :: pqInsert x ys

/-- The `SearchState` owned by one run of `dijkstra_generator`: the
`dist` dictionary (`none` = `float("inf")`), the `prev` dictionary
(`none` = key absent), the `seen` set (kept as a list in settle order)
and the frontier `pq`. -/
structure SState where
  dist : Nat → Option ℚ
  prev : Nat → Option Nat
  seen : List Nat
  pq : List (ℚ × Nat)

/-- The backward walk of the reconstruction loop
`while cur in prev: path.append(cur); cur = prev[cur]`: the list of nodes
appended, starting from `cur`.  The Python loop carries no fuel; the fuel
argument is always instantiated large enough that the walk is complete
(proved from the search invariants). -/
def walkChain (prev : Nat → Option Nat) : Nat → Nat → List Nat
  | 0, _ => []
  | fuel + 1, cur =>
    match prev cur with
    | some p => cur :: walkChain prev fuel p
    | none => []

/-- Path reconstruction as in the generator: collect the chain, append
`start`, reverse. -/
def reconstructPath (prev : Nat → Option Nat) (start target : Nat) (fuel : Nat) : List Nat :=
  (walkChain prev fuel target ++ [start]).reverse

/-- The body of the neighbor loop for one neighbor `v` of the settled node
`u` popped with distance `d`: compute `nd = d + w`, and on strict
improvement update `dist[v]`, `prev[v]`, push `(nd, v)` and yield
`("relax", v)`; otherwise do nothing. -/
def relaxStep (g : Graph) (d : ℚ) (u : Nat) (s : SState) (v : Nat) : List Event × SState :=
  if ltOpt (d + g.w u v) (s.dist v) then
    ([Event.relax v],
      { s with
        dist := fun x => if x = v then some (d + g.w u v) else s.dist x
        prev := fun x => if x = v then some u else s.prev x
        pq := pqInsert (d + g.w u v, v) s.pq })
  else ([], s)

/-- The full neighbor loop `for v in G.neighbors(u)`, run over the
iteration order `g.adj u`. -/
def relaxAll (g : Graph) (d : ℚ) (u : Nat) : List Nat → SState → List Event × SState
  | [], s => ([], s)
  | v :: vs, s =>
    let r1 := relaxStep g d u s v
    let r2 := relaxAll g d u vs r1.2
    (r1.1 ++ r2.1, r2.2)

/-- Result of one iteration of the `while pq` loop: either the search
terminates (`halt`) with its final events and final state, or it continues
(`next`) with the events of this iteration. -/
inductive StepRes where
  | halt (evs : List Event) (s : SState) : StepRes
  | next (evs : List Event) (s : SState) : StepRes

/-- One iteration of the `while pq` loop of `dijkstra_generator`:
pop the least entry; skip it silently if the node is already settled;
otherwise settle the node and yield `("visit", u)`; if it is the target,
reconstruct the path and yield `("done", path)`; otherwise relax all its
neighbors.  An empty frontier yields `("no_path", None)`. -/
def dijkstraStep (g : Graph) (start target : Nat) (s : SState) : StepRes :=
  match s.pq with
  | [] => .halt [Event.noPath] s
  | (d, u) :: rest =>
    if u ∈ s.seen then .next [] { s with pq := rest }
    else
      let s1 : SState := { s with pq := rest, seen := s.seen ++ [u] }
      if u = target then
        .halt [Event.visit u, Event.done (reconstructPath s1.prev start target s1.seen.length)] s1
      else
        let r := relaxAll g d u (g.adj u) s1
        .next (Event.visit u :: r.1) r.2

/-- The `while pq` loop.  The Python loop has no fuel; the fuel below is
always instantiated with `dijkstraFuel`, which is proved to exceed the
number of iterations the loop can make, so the zero-fuel branch is
unreachable from `dijkstraRun`. -/
def dijkstraLoop (g : Graph) (start target : Nat) : Nat → SState → List Event × SState
  | 0, s => ([], s)
  | fuel + 1, s =>
    match dijkstraStep g start target s with
    | .halt evs s' => (evs, s')
    | .next evs s' =>
      let r := dijkstraLoop g start target fuel s'
      (evs ++ r.1, r.2)

/-- Largest neighbor-list length over the graph's nodes. -/
def maxAdjDeg (g : Graph) : Nat :=
  (g.nodes.map (fun n => (g.adj n).length)).foldr Nat.max 0

/-- Fuel bound: every loop iteration consumes one frontier entry, at most
`|nodes|` iterations settle a node and each pushes at most `maxAdjDeg`
entries, so the iteration count is below this bound. -/
def dijkstraFuel (g : Graph) : Nat :=
  g.nodes.length * (maxAdjDeg g + 1) + 2

/-- The initial `SearchState`:
`dist = {n: inf for n in G.nodes()}; dist[start] = 0.0; prev = {};
pq = [(0.0, start)]; seen = set()`. -/
def initState (start : Nat) : SState :=
  { dist := fun n => if n = start then some 0 else none
    prev := fun _ => none
    seen := []
    pq := [(0, start)] }

/-- A full run of `dijkstra_generator`, returning both the emitted event
sequence and the final `SearchState` (the state at the moment the
generator returns). -/
def dijkstraRun (g : Graph) (start target : Nat) : List Event × SState :=
  dijkstraLoop g start target (dijkstraFuel g) (initState start)

/-- The event sequence of `dijkstra_generator(G, start, target)`. -/
def dijkstra_generator (g : Graph) (start target : Nat) : List Event :=
  (dijkstraRun g start target).1

/-- Sum of the edge weights between consecutive nodes of a path.  This is
also the accumulation loop of `compute_distance_matrix`
(src/multiemergency.py lines 120-129), which adds the `length` of every
consecutive edge of a path. -/
def pathWeight (g : Graph) : List Nat → ℚ
  | [] => 0
  | [_] => 0
  | a :: b :: rest => g.w a b + pathWeight g (b :: rest)

/-- `dijkstra_shortest_path` (src/multiemergency.py lines 99-103): the
`networkx` shortest-path call, modelled by the engine's own search, with
the `NetworkXNoPath` exception caught and turned into the empty list. -/
def dijkstra_shortest_path (g : Graph) (source target : Nat) : List Nat :=
  match (dijkstraRun g source target).1.getLast? with
  | some (Event.done p) => p
  | _ => []

/-- Entry `(i, j)` of the `distance_matrix` built by
`compute_distance_matrix` (src/multiemergency.py lines 108-130):
zero on the diagonal, otherwise the summed edge lengths of the shortest
path (an empty path sums to `0.0`). -/
def distance_matrix_entry (g : Graph) (points : List Nat) (i j : Nat) : ℚ :=
  if i = j then 0
  else pathWeight g (dijkstra_shortest_path g (points.getD i 0) (points.getD j 0))

/-- Entry `(i, j)` of the `path_matrix` built by `compute_distance_matrix`:
the single-node path on the diagonal, otherwise the shortest path (empty
when no path exists). -/
def path_matrix_entry (g : Graph) (points : List Nat) (i j : Nat) : List Nat :=
  if i = j then [points.getD i 0]
  else dijkstra_shortest_path g (points.getD i 0) (points.getD j 0)

/-- The inner cost loop of `find_best_route_order`
(src/multiemergency.py lines 183-188): starting from `prev = 0` (the base
index), add `distance_matrix[prev][idx]` for every `idx` of the
permutation, and finally `distance_matrix[prev][0]` for the return to
base. -/
def routeCostAux (dm : Nat → Nat → ℚ) : ℚ → Nat → List Nat → ℚ
  | cost, prev, [] => cost + dm prev 0
  | cost, prev, idx :: rest => routeCostAux dm (cost + dm prev idx) idx rest

/-- Round-trip cost of one permutation, as computed by
`find_best_route_order`. -/
def routeCost (dm : Nat → Nat → ℚ) (perm : List Nat) : ℚ :=
  routeCostAux dm 0 0 perm

/-- Sum of `dm` over consecutive elements of a list; used to state the
specification's cost formula
`distanceTable[origin][first] + Σ distanceTable[prev][next] + distanceTable[last][origin]`. -/
def chainSum (dm : Nat → Nat → ℚ) : List Nat → ℚ
  | [] => 0
  | [_] => 0
  | a :: b :: rest => dm a b + chainSum dm (b :: rest)

/-- The specification's round-trip cost formula for one responder's
subset order (spec section 4.3); an empty order costs `0`. -/
def specTripCost (dm : Nat → Nat → ℚ) : List Nat → ℚ
  | [] => 0
  | a :: rest => dm 0 a + chainSum dm (a :: rest) + dm ((a :: rest).getLastD 0) 0

/-- All ways of selecting one element of a list, each paired with the
remaining elements in order; the selection order of
`itertools.permutations`. -/
def selections : List Nat → List (Nat × List Nat)
  | [] => []
  | x :: xs => (x, xs) :: (selections xs).map (fun p => (p.1, x :: p.2))

/-- Fueled enumeration of permutations in the order of
`itertools.permutations`. -/
def itertoolsPermsAux : Nat → List Nat → List (List Nat)
  | _, [] => [[]]
  | 0, _ :: _ => []
  | fuel + 1, x :: xs =>
    (selections (x :: xs)).flatMap fun p => (itertoolsPermsAux fuel p.2).map (p.1 :: ·)

/-- `itertools.permutations(subset)`: all permutations, first element
varying slowest, exactly in the library's enumeration order. -/
def itertoolsPerms (l : List Nat) : List (List Nat) :=
  itertoolsPermsAux l.length l

/-- Comparison of two optional rationals where `none` is `float("inf")`:
the test `total_cost < best_cost`. -/
def optLtOpt : Option ℚ → Option ℚ → Bool
  | some x, some y => decide (x < y)
  | some _, none => true
  | none, _ => false

/-- Addition of optional rationals where `none` is `float("inf")`
(`inf + x = inf`), modelling `cost_1 + cost_2` on floats. -/
def addOpt : Option ℚ → Option ℚ → Option ℚ
  | some a, some b => some (a + b)
  | _, _ => none

/-- `find_best_route_order(subset)` (src/multiemergency.py lines 176-191):
the empty subset returns `((), 0.0)`; otherwise fold over
`itertools.permutations(subset)` keeping the strictly cheaper order,
starting from `best_order = None`, `best_cost = inf`. -/
def find_best_route_order (dm : Nat → Nat → ℚ) (subset : List Nat) :
    Option (List Nat) × Option ℚ :=
  if subset.length = 0 then (some [], some 0)
  else
    (itertoolsPerms subset).foldl
      (fun best perm =>
        if ltOpt (routeCost dm perm) best.2 then (some perm, some (routeCost dm perm)) else best)
      (none, none)

/-- `subset1` of a bitmask: `[emergencies_idx[i] for i in range(n) if mask & (1 << i)]`
with `emergencies_idx = [1..n]`. -/
def maskSubset1 (n mask : Nat) : List Nat :=
  ((List.range n).filter (fun i => mask.testBit i)).map (· + 1)

/-- `subset2`: the emergencies not in `subset1`. -/
def maskSubset2 (n mask : Nat) : List Nat :=
  ((List.range n).map (· + 1)).filter (fun e => !((maskSubset1 n mask).contains e))

/-- The partition and per-subset best orders computed for one bitmask by
the body of `find_best_partition_and_routes`. -/
def partitionPayload (dm : Nat → Nat → ℚ) (n mask : Nat) :
    (List Nat × List Nat) × (Option (List Nat) × Option (List Nat)) :=
  ((maskSubset1 n mask, maskSubset2 n mask),
   ((find_best_route_order dm (maskSubset1 n mask)).1,
    (find_best_route_order dm (maskSubset2 n mask)).1))

/-- `total_cost = cost_1 + cost_2` for one bitmask. -/
def partitionCost (dm : Nat → Nat → ℚ) (n mask : Nat) : Option ℚ :=
  addOpt (find_best_route_order dm (maskSubset1 n mask)).2
    (find_best_route_order dm (maskSubset2 n mask)).2

/-- `find_best_partition_and_routes` (src/multiemergency.py lines
138-170): brute force over all bitmasks `0 .. 2^n - 1`, keeping the
strictly cheaper `(partition, routes, cost)`, starting from
`best_cost = inf`, `best_partition = best_routes = None`. -/
def find_best_partition_and_routes (dm : Nat → Nat → ℚ) (n : Nat) :
    Option ((List Nat × List Nat) × (Option (List Nat) × Option (List Nat))) × Option ℚ :=
  (List.range (2 ^ n)).foldl
    (fun best mask =>
      if optLtOpt (partitionCost dm n mask) best.2
      then (some (partitionPayload dm n mask), partitionCost dm n mask)
      else best)
    (none, none)

/-- Body of the route-assembly loop of `build_full_path`
(src/multiemergency.py lines 199-206): take the path segment from the
route's last node to the emergency `points[idx]` and append it without
its first node; segments of length at most one append nothing. -/
def extend_full_path (g : Graph) (base : Nat) (points : List Nat)
    (full : List Nat) (idx : Nat) : List Nat :=
  if 1 < (dijkstra_shortest_path g (full.getLastD base) (points.getD idx base)).length
  then full ++ (dijkstra_shortest_path g (full.getLastD base) (points.getD idx base)).drop 1
  else full

/-- `build_full_path(route_order)` (src/multiemergency.py lines 196-208):
the empty order gives `[base_node]`; otherwise start at `[base_node]`
and extend through the ordered emergency indices, `points` being
`[base_node] + emergency_nodes`. -/
def build_full_path (g : Graph) (base : Nat) (emergency_nodes : List Nat)
    (route_order : List Nat) : List Nat :=
  if route_order.isEmpty then [base]
  else route_order.foldl (extend_full_path g base (base :: emergency_nodes)) [base]

/-- The `RouteAssembler` contract as stated by the specification
(section 4.4): start the route at the origin and, for each site in order,
append the shortest-path segment from the route's current last node to
that site with the segment's first node excluded. -/
def routeAssemblerSpec (g : Graph) (base : Nat) (sites : List Nat) : List Nat :=
  sites.foldl
    (fun route site => route ++ (dijkstra_shortest_path g (route.getLastD base) site).drop 1)
    [base]

/-- Concrete 4-node cycle graph A-B-C-D-A with unit weights
(A = 0, B = 1, C = 2, D = 3). -/
def cycleG : Graph :=
  { nodes := [0, 1, 2, 3]
    adj := fun n =>
      match n with
      | 0 => [1, 3]
      | 1 => [0, 2]
      | 2 => [1, 3]
      | 3 => [2, 0]
      | _ => []
    w := fun _ _ => 1 }

/-- Concrete two-node graph with no edges: node 1 is unreachable from
node 0. -/
def gNone : Graph :=
  { nodes := [0, 1]
    adj := fun _ => []
    w := fun _ _ => 1 }

/-- Concrete dispatch distance table of the specification scenario:
origin `O` is index 0, sites `P1`, `P2` are indices 1, 2, with
`O-P1 = 3`, `O-P2 = 5`, `P1-P2 = 2`. -/
def dmEx : Nat → Nat → ℚ := fun i j =>
  match i, j with
  | 0, 1 => 3
  | 1, 0 => 3
  | 0, 2 => 5
  | 2, 0 => 5
  | 1, 2 => 2
  | 2, 1 => 2
  | _, _ => 0

/-- Boolean test for `("visit", _)` events. -/
def isVisitEvent : Event → Bool
  | Event.visit _ => true
  | _ => false

/-! ### Basic lemmas about the loop and its step -/

theorem dijkstraLoop_succ (g : Graph) (a b fuel : Nat) (s : SState) :
    dijkstraLoop g a b (fuel + 1) s =
      match dijkstraStep g a b s with
      | .halt evs s' => (evs, s')
      | .next evs s' =>
        let r := dijkstraLoop g a b fuel s'
        (evs ++ r.1, r.2) := rfl

theorem dijkstraStep_nil {s : SState} (g : Graph) (a b : Nat) (h : s.pq = []) :
    dijkstraStep g a b s = .halt [Event.noPath] s := by
  unfold dijkstraStep
  rw [h]

theorem dijkstraStep_skip {s : SState} (g : Graph) (a b : Nat) {d : ℚ} {u : Nat}
    {rest : List (ℚ × Nat)} (h : s.pq = (d, u) :: rest) (hu : u ∈ s.seen) :
    dijkstraStep g a b s = .next [] { s with pq := rest } := by
  unfold dijkstraStep
  rw [h]
  simp [hu]

theorem dijkstraStep_found {s : SState} (g : Graph) (a b : Nat) {d : ℚ} {u : Nat}
    {rest : List (ℚ × Nat)} (h : s.pq = (d, u) :: rest) (hu : u ∉ s.seen) (ht : u = b) :
    dijkstraStep g a b s =
      .halt [Event.visit u,
             Event.done (reconstructPath s.prev a b (s.seen.length + 1))]
        { s with pq := rest, seen := s.seen ++ [u] } := by
  subst ht
  unfold dijkstraStep
  rw [h]
  simp [hu]

theorem dijkstraStep_settle {s : SState} (g : Graph) (a b : Nat) {d : ℚ} {u : Nat}
    {rest : List (ℚ × Nat)} (h : s.pq = (d, u) :: rest) (hu : u ∉ s.seen) (ht : u ≠ b) :
    dijkstraStep g a b s =
      .next (Event.visit u :: (relaxAll g d u (g.adj u) { s with pq := rest, seen := s.seen ++ [u] }).1)
        (relaxAll g d u (g.adj u) { s with pq := rest, seen := s.seen ++ [u] }).2 := by
  unfold dijkstraStep
  rw [h]
  simp [hu, ht]

theorem relaxStep_seen (g : Graph) (d : ℚ) (u : Nat) (s : SState) (v : Nat) :
    (relaxStep g d u s v).2.seen = s.seen := by
  unfold relaxStep
  split <;> rfl

theorem relaxAll_seen (g : Graph) (d : ℚ) (u : Nat) (vs : List Nat) (s : SState) :
    (relaxAll g d u vs s).2.seen = s.seen := by
  induction vs generalizing s with
  | nil => rfl
  | cons v vs ih =>
    show (relaxAll g d u vs (relaxStep g d u s v).2).2.seen = s.seen
    rw [ih, relaxStep_seen]

theorem relaxAll_events (g : Graph) (d : ℚ) (u : Nat) (vs : List Nat) (s : SState) :
    ∀ e ∈ (relaxAll g d u vs s).1, ∃ v, e = Event.relax v := by
  induction vs generalizing s with
  | nil => intro e he; cases he
  | cons v vs ih =>
    intro e he
    have he' : e ∈ (relaxStep g d u s v).1 ∨ e ∈ (relaxAll g d u vs (relaxStep g d u s v).2).1 := by
      simpa [relaxAll] using List.mem_append.mp he
    rcases he' with h1 | h2
    · unfold relaxStep at h1
      by_cases hc : ltOpt (d + g.w u v) (s.dist v) = true
      · rw [if_pos hc] at h1
        have : e = Event.relax v := by simpa using h1
        exact ⟨v, this⟩
      · rw [if_neg hc] at h1
        cases h1
    · exact ih _ e h2

/-! ### C9: origin equals destination -/

/-- C9.  When origin equals destination, the search settles the origin and
terminates with `Found` carrying the single-element sequence `[origin]`,
and path reconstruction on a one-node path (the origin having no
predecessor) returns exactly `[origin]`. -/
theorem C9_origin_equals_destination :
    (∀ (g : Graph) (s : Nat),
      dijkstra_generator g s s = [Event.visit s, Event.done [s]]) ∧
    (∀ (prev : Nat → Option Nat) (s fuel : Nat), prev s = none →
      reconstructPath prev s s fuel = [s]) := by
  constructor
  · intro g s
    have h2 : dijkstraFuel g = g.nodes.length * (maxAdjDeg g + 1) + 1 + 1 := rfl
    unfold dijkstra_generator dijkstraRun
    rw [h2, dijkstraLoop_succ,
      dijkstraStep_found g s s rfl (by simp [initState]) rfl]
    simp [initState, reconstructPath, walkChain]
  · intro prev s fuel h
    cases fuel with
    | zero => simp [reconstructPath, walkChain]
    | succ fuel => simp [reconstructPath, walkChain, h]

/-- C9 witness: the theorem applied at a concrete graph, origin `5`, and a
concrete empty predecessor map. -/
theorem C9_origin_equals_destination_witness :
    dijkstra_generator gNone 5 5 = [Event.visit 5, Event.done [5]] ∧
    reconstructPath (fun _ => none) 0 0 3 = [0] :=
  ⟨C9_origin_equals_destination.1 gNone 5,
   C9_origin_equals_destination.2 (fun _ => none) 0 3 rfl⟩

/-! ### C6: the 4-cycle scenario -/

unseal Rat.add in
/-- C6 counterexample.  On the 4-node cycle with unit weights, searching
from `A = 0` to `C = 2`, the `Visited` events emitted before the `Found`
event are for `A`, `B`, `D` and `C`: four of them, not the three the
claim states (both `B` and `D` are settled at distance 1 before `C` at
distance 2). -/
theorem C6_counterexample :
    (dijkstra_generator cycleG 0 2).filter isVisitEvent =
      [Event.visit 0, Event.visit 1, Event.visit 3, Event.visit 2] ∧
    ((dijkstra_generator cycleG 0 2).filter isVisitEvent).length ≠ 3 := by
  constructor
  · decide
  · decide

unseal Rat.add in
/-- C6 amended.  On the 4-node cycle graph A-B-C-D-A with unit edge
weights, the search from A to C emits exactly the event sequence below:
the `Found` path is `[A, B, C]` with total cost 2, and exactly four
`Visited` events (A, then B and D, then C) occur before the `Found`
event. -/
theorem C6_cycle_scenario :
    dijkstra_generator cycleG 0 2 =
      [Event.visit 0, Event.relax 1, Event.relax 3, Event.visit 1, Event.relax 2,
       Event.visit 3, Event.visit 2, Event.done [0, 1, 2]] ∧
    pathWeight cycleG [0, 1, 2] = 2 := by
  constructor
  · decide
  · decide

/-! ### C5: the relaxation step -/

/-- C5.  For a neighbor `v` of the newly settled node `u` popped with
distance `d`: a `Relaxed(v)` event is emitted if and only if
`nd = d + w(u, v)` is strictly below the current `dist[v]` (with an
absent entry playing `+inf`); exactly in that case `dist[v] := nd`,
`prev[v] := u` and `(nd, v)` is pushed on the frontier, everything else
unchanged; otherwise — in particular when `nd` merely equals `dist[v]` —
no event is emitted and the state is unchanged. -/
theorem C5_relaxed_iff_strict_improvement (g : Graph) (d : ℚ) (u : Nat) (s : SState) (v : Nat) :
    ((relaxStep g d u s v).1 = [Event.relax v] ↔
      ∀ dv, s.dist v = some dv → d + g.w u v < dv) ∧
    (ltOpt (d + g.w u v) (s.dist v) = true →
      (relaxStep g d u s v).2.dist v = some (d + g.w u v) ∧
      (relaxStep g d u s v).2.prev v = some u ∧
      (relaxStep g d u s v).2.pq = pqInsert (d + g.w u v, v) s.pq ∧
      (∀ x, x ≠ v → (relaxStep g d u s v).2.dist x = s.dist x ∧
        (relaxStep g d u s v).2.prev x = s.prev x) ∧
      (relaxStep g d u s v).2.seen = s.seen) ∧
    (ltOpt (d + g.w u v) (s.dist v) = false → relaxStep g d u s v = ([], s)) ∧
    (s.dist v = some (d + g.w u v) → relaxStep g d u s v = ([], s)) := by
  have hiff : ltOpt (d + g.w u v) (s.dist v) = true ↔
      ∀ dv, s.dist v = some dv → d + g.w u v < dv := by
    cases h : s.dist v with
    | none => simp [ltOpt]
    | some dv =>
      simp only [ltOpt, decide_eq_true_eq]
      constructor
      · intro hlt dv' hdv'
        cases hdv'
        exact hlt
      · intro hall
        exact hall dv rfl
  refine ⟨?_, ?_, ?_, ?_⟩
  · rw [← hiff]
    unfold relaxStep
    constructor
    · intro h
      by_contra hfalse
      rw [Bool.not_eq_true] at hfalse
      rw [if_neg (by simp [hfalse])] at h
      cases h
    · intro h
      rw [if_pos (by simp [h])]
  · intro h
    unfold relaxStep
    rw [if_pos (by simp [h])]
    refine ⟨by simp, by simp, rfl, ?_, rfl⟩
    intro x hx
    constructor
    · simp [hx]
    · simp [hx]
  · intro h
    unfold relaxStep
    rw [if_neg (by simp [h])]
  · intro h
    unfold relaxStep
    rw [if_neg (by simp [ltOpt, h])]

/-- Concrete state whose distance map is constantly `2`, used to witness
the equal-candidate case of the relaxation characterization. -/
def allTwoState : SState :=
  { dist := fun _ => some 2, prev := fun _ => none, seen := [], pq := [] }

unseal Rat.add in
/-- C5 witness: the characterization applied at a concrete state where
the candidate strictly improves, and at the concrete equal-distance
state, where nothing happens. -/
theorem C5_relaxed_iff_strict_improvement_witness :
    (relaxStep cycleG 0 0 (initState 0) 1).1 = [Event.relax 1] ∧
    relaxStep cycleG 1 2 allTwoState 1 = ([], allTwoState) := by
  constructor
  · exact (C5_relaxed_iff_strict_improvement cycleG 0 0 (initState 0) 1).1.mpr
      (by intro dv hdv; simp [initState] at hdv)
  · exact (C5_relaxed_iff_strict_improvement cycleG 1 2 allTwoState 1).2.2.2
      (by norm_num [cycleG, allTwoState])

/-! ### C4: stale entries are skipped, nodes settle at most once -/

theorem loop_visit_count (g : Graph) (a b u : Nat) :
    ∀ (fuel : Nat) (s : SState),
      (dijkstraLoop g a b fuel s).1.count (Event.visit u) ≤ 1 ∧
      (u ∈ s.seen → (dijkstraLoop g a b fuel s).1.count (Event.visit u) = 0) := by
  intro fuel
  induction fuel with
  | zero => intro s; simp [dijkstraLoop]
  | succ fuel ih =>
    intro s
    rcases hpq : s.pq with _ | ⟨⟨d, u0⟩, rest⟩
    · rw [dijkstraLoop_succ, dijkstraStep_nil g a b hpq]
      simp [List.count_cons]
    · by_cases h1 : u0 ∈ s.seen
      · rw [dijkstraLoop_succ, dijkstraStep_skip g a b hpq h1]
        simpa using ih { s with pq := rest }
      · by_cases h2 : u0 = b
        · rw [dijkstraLoop_succ, dijkstraStep_found g a b hpq h1 h2]
          constructor
          · simp [List.count_cons]
            split <;> simp
          · intro hu
            have : u ≠ u0 := fun h => h1 (h ▸ hu)
            simp [List.count_cons, List.count_nil, this.symm]
        · rw [dijkstraLoop_succ, dijkstraStep_settle g a b hpq h1 h2]
          set s1 : SState := { s with pq := rest, seen := s.seen ++ [u0] } with hs1
          set s2 := (relaxAll g d u0 (g.adj u0) s1).2 with hs2
          have hseen2 : s2.seen = s.seen ++ [u0] := by
            rw [hs2, relaxAll_seen]
          have hrelax : (relaxAll g d u0 (g.adj u0) s1).1.count (Event.visit u) = 0 := by
            rw [List.count_eq_zero]
            intro hmem
            rcases relaxAll_events g d u0 (g.adj u0) s1 _ hmem with ⟨v, hv⟩
            cases hv
          by_cases h3 : u = u0
          · subst h3
            have hrec := (ih s2).2 (by rw [hseen2]; simp)
            constructor
            · simp [List.count_cons, List.count_append, hrelax, hrec]
            · intro hu; exact absurd hu h1
          · have hrec := ih s2
            constructor
            · simpa [List.count_cons, List.count_append, hrelax, Ne.symm h3] using hrec.1
            · intro hu
              have := hrec.2 (by rw [hseen2]; exact List.mem_append_left _ hu)
              simpa [List.count_cons, List.count_append, hrelax, Ne.symm h3] using this

/-- C4.  Popping a frontier entry whose node is already settled discards
the entry with no event and continues the loop; and every node appears in
at most one `Visited` event per run, even though the frontier may hold
stale duplicate entries. -/
theorem C4_stale_entries_skipped :
    (∀ (g : Graph) (a b : Nat) (s : SState) (d : ℚ) (u : Nat) (rest : List (ℚ × Nat)),
      s.pq = (d, u) :: rest → u ∈ s.seen →
      dijkstraStep g a b s = StepRes.next [] { s with pq := rest }) ∧
    (∀ (g : Graph) (a b u : Nat),
      (dijkstra_generator g a b).count (Event.visit u) ≤ 1) := by
  constructor
  · intro g a b s d u rest h hu
    exact dijkstraStep_skip g a b h hu
  · intro g a b u
    exact (loop_visit_count g a b u (dijkstraFuel g) (initState a)).1

/-- Concrete state whose frontier holds a stale entry for the
already-settled node `0`, used to witness the skip equation. -/
def staleState : SState :=
  { dist := fun _ => none, prev := fun _ => none, seen := [0], pq := [(0, 0)] }

/-- C4 witness: the skip equation applied at a concrete state whose
frontier holds a stale entry for the already-settled node `0`, and the
at-most-once bound at a concrete run. -/
theorem C4_stale_entries_skipped_witness :
    dijkstraStep gNone 0 1 staleState = StepRes.next [] { staleState with pq := [] } ∧
    (dijkstra_generator gNone 0 1).count (Event.visit 0) ≤ 1 :=
  ⟨C4_stale_entries_skipped.1 gNone 0 1 staleState 0 0 [] rfl (by simp [staleState]),
   C4_stale_entries_skipped.2 gNone 0 1 0⟩

/-! ### C8: route assembly -/

theorem foldl_congr_fun {α β : Type} (f h : β → α → β)
    (hfh : ∀ acc x, f acc x = h acc x) :
    ∀ (l : List α) (init : β), l.foldl f init = l.foldl h init := by
  intro l
  induction l with
  | nil => intro init; rfl
  | cons x xs ih =>
    intro init
    show xs.foldl f (f init x) = xs.foldl h (h init x)
    rw [hfh, ih]

theorem extend_full_path_eq (g : Graph) (base : Nat) (points : List Nat)
    (full : List Nat) (idx : Nat) :
    extend_full_path g base points full idx =
      full ++ (dijkstra_shortest_path g (full.getLastD base) (points.getD idx base)).drop 1 := by
  unfold extend_full_path
  split
  · rfl
  · rename_i hlen
    have hdrop : (dijkstra_shortest_path g (full.getLastD base) (points.getD idx base)).drop 1 = [] :=
      List.drop_eq_nil_of_le (by omega)
    rw [hdrop, List.append_nil]

theorem build_head_aux (g : Graph) (base : Nat) (points : List Nat) :
    ∀ (order : List Nat) (acc : List Nat), acc ≠ [] →
      (order.foldl (extend_full_path g base points) acc).head? = acc.head? := by
  intro order
  induction order with
  | nil => intro acc hacc; rfl
  | cons idx rest ih =>
    intro acc hacc
    show (rest.foldl (extend_full_path g base points) (extend_full_path g base points acc idx)).head? = _
    rw [ih _ (by rw [extend_full_path_eq]; simp [hacc]), extend_full_path_eq]
    cases acc with
    | nil => exact absurd rfl hacc
    | cons x xs => simp

/-- C8.  The assembled route begins at the origin; for each site in
order it appends the shortest-path segment from the route's current last
node to that site with the segment's first node excluded (which is
exactly the specification's `RouteAssembler` contract); and the empty
site sequence yields the single-node route `[origin]`. -/
theorem C8_route_assembly :
    (∀ (g : Graph) (base : Nat) (es : List Nat),
      build_full_path g base es [] = [base]) ∧
    (∀ (g : Graph) (base : Nat) (es order : List Nat),
      (build_full_path g base es order).head? = some base) ∧
    (∀ (g : Graph) (base : Nat) (es order : List Nat),
      build_full_path g base es order =
        routeAssemblerSpec g base (order.map fun idx => (base :: es).getD idx base)) := by
  refine ⟨fun g base es => rfl, ?_, ?_⟩
  · intro g base es order
    unfold build_full_path
    split
    · rfl
    · rw [build_head_aux g base (base :: es) order [base] (by simp)]
      rfl
  · intro g base es order
    unfold build_full_path routeAssemblerSpec
    rw [List.foldl_map]
    split
    · rename_i hord
      rw [List.isEmpty_iff] at hord
      rw [hord]
      rfl
    · apply foldl_congr_fun
      intro acc x
      rw [extend_full_path_eq]

/-! ### C7 counterexample: no abort on an unreached destination -/

/-- C7 counterexample.  With the edgeless two-node graph, destination `1`
is never reached from `0` (the run ends in `no_path`); yet
`dijkstra_shortest_path` returns normally with the empty list (the
`NetworkXNoPath` exception is caught), and `build_full_path` silently
returns the partial one-node route `[0]` instead of aborting with an
`Unreachable`-kind fault. -/
theorem C7_counterexample :
    dijkstra_generator gNone 0 1 = [Event.visit 0, Event.noPath] ∧
    dijkstra_shortest_path gNone 0 1 = [] ∧
    build_full_path gNone 0 [1] [1] = [0] := by
  refine ⟨?_, ?_, ?_⟩ <;> decide

/-! ### Settle ranks -/

/-- Position of the first occurrence of `v` in `l` (the settle time of a
settled node, `seen` being kept in settle order). -/
def rankIn (l : List Nat) (v : Nat) : Nat :=
  match l with
  | [] => 0
  | x :: xs => if x = v then 0 else rankIn xs v + 1

theorem rankIn_lt_length {l : List Nat} {v : Nat} (h : v ∈ l) : rankIn l v < l.length := by
  induction l with
  | nil => cases h
  | cons x xs ih =>
    by_cases hx : x = v
    · simp [rankIn, hx]
    · have : v ∈ xs := by
        rcases List.mem_cons.mp h with h1 | h1
        · exact absurd h1.symm hx
        · exact h1
      simp only [rankIn, if_neg hx, List.length_cons]
      exact Nat.succ_lt_succ (ih this)

theorem rankIn_append_left {l : List Nat} {v : Nat} (l' : List Nat) (h : v ∈ l) :
    rankIn (l ++ l') v = rankIn l v := by
  induction l with
  | nil => cases h
  | cons x xs ih =>
    by_cases hx : x = v
    · simp [rankIn, hx]
    · have : v ∈ xs := by
        rcases List.mem_cons.mp h with h1 | h1
        · exact absurd h1.symm hx
        · exact h1
      simp only [List.cons_append, rankIn, if_neg hx]
      rw [show xs.append l' = xs ++ l' from rfl, ih this]

theorem rankIn_append_self {l : List Nat} {v : Nat} (h : v ∉ l) :
    rankIn (l ++ [v]) v = l.length := by
  induction l with
  | nil => simp [rankIn]
  | cons x xs ih =>
    have hx : x ≠ v := fun he => h (he ▸ List.mem_cons_self x xs)
    simp only [List.cons_append, rankIn, if_neg hx, List.length_cons]
    rw [show xs.append [v] = xs ++ [v] from rfl, ih (fun hm => h (List.mem_cons_of_mem x hm))]

/-! ### Frontier order lemmas -/

theorem pqLe_fst {a b : ℚ × Nat} (h : pqLe a b = true) : a.1 ≤ b.1 := by
  unfold pqLe at h
  rcases Bool.or_eq_true_iff.mp h with h1 | h1
  · exact le_of_lt (of_decide_eq_true h1)
  · exact le_of_eq (of_decide_eq_true (Bool.and_eq_true_iff.mp h1).1)

theorem pqLe_trans {a b c : ℚ × Nat} (hab : pqLe a b = true) (hbc : pqLe b c = true) :
    pqLe a c = true := by
  unfold pqLe at hab hbc ⊢
  rcases Bool.or_eq_true_iff.mp hab with h1 | h1 <;>
    rcases Bool.or_eq_true_iff.mp hbc with h2 | h2
  · have := lt_trans (of_decide_eq_true h1) (of_decide_eq_true h2)
    simp [this]
  · rcases Bool.and_eq_true_iff.mp h2 with ⟨h2a, _⟩
    have := (of_decide_eq_true h2a) ▸ (of_decide_eq_true h1)
    simp [this]
  · rcases Bool.and_eq_true_iff.mp h1 with ⟨h1a, _⟩
    have := (of_decide_eq_true h1a).symm ▸ (of_decide_eq_true h2)
    simp [this]
  · rcases Bool.and_eq_true_iff.mp h1 with ⟨h1a, h1b⟩
    rcases Bool.and_eq_true_iff.mp h2 with ⟨h2a, h2b⟩
    have ha : a.1 = c.1 := (of_decide_eq_true h1a).trans (of_decide_eq_true h2a)
    have hb : a.2 ≤ c.2 := le_trans (of_decide_eq_true h1b) (of_decide_eq_true h2b)
    simp [ha, hb]

theorem pqLe_total (a b : ℚ × Nat) : pqLe a b = true ∨ pqLe b a = true := by
  unfold pqLe
  rcases lt_trichotomy a.1 b.1 with h | h | h
  · left; simp [h]
  · rcases Nat.le_total a.2 b.2 with h2 | h2
    · left; simp [h, h2]
    · right; simp [h.symm, h2]
  · right; simp [h]

/-- The frontier is sorted by the tuple order. -/
def PQSorted (l : List (ℚ × Nat)) : Prop :=
  List.Pairwise (fun a b => pqLe a b = true) l

theorem mem_pqInsert {a x : ℚ × Nat} : ∀ {l : List (ℚ × Nat)},
    a ∈ pqInsert x l ↔ a = x ∨ a ∈ l := by
  intro l
  induction l with
  | nil => simp [pqInsert]
  | cons y ys ih =>
    unfold pqInsert
    split
    · simp only [List.mem_cons]
    · simp only [List.mem_cons, ih]
      tauto

theorem pqInsert_sorted {x : ℚ × Nat} : ∀ {l : List (ℚ × Nat)},
    PQSorted l → PQSorted (pqInsert x l) := by
  intro l
  induction l with
  | nil =>
    intro _
    exact List.pairwise_singleton _ _
  | cons y ys ih =>
    intro hs
    rcases List.pairwise_cons.mp hs with ⟨hy, hys⟩
    unfold pqInsert
    split
    · rename_i hxy
      refine List.pairwise_cons.mpr ⟨?_, hs⟩
      intro b hb
      rcases List.mem_cons.mp hb with h1 | h1
      · exact h1 ▸ hxy
      · exact pqLe_trans hxy (hy b h1)
    · rename_i hxy
      have hyx : pqLe y x = true := (pqLe_total x y).resolve_left hxy
      refine List.pairwise_cons.mpr ⟨?_, ih hys⟩
      intro b hb
      rcases mem_pqInsert.mp hb with h1 | h1
      · exact h1 ▸ hyx
      · exact hy b h1

/-! ### Search invariant -/

/-- The main invariant of a `SearchState` reachable by the engine from
`initState start` on a well-formed graph.  `seen` lists the settled nodes
in settle order.  -/
structure Inv (g : Graph) (start : Nat) (s : SState) : Prop where
  sorted : PQSorted s.pq
  pqDom : ∀ k v, (k, v) ∈ s.pq → 0 ≤ k ∧ v ∈ g.nodes ∧ ∃ dv, s.dist v = some dv ∧ dv ≤ k
  reachedPQ : ∀ v dv, v ∉ s.seen → s.dist v = some dv → (dv, v) ∈ s.pq
  seenDist : ∀ v ∈ s.seen, ∃ dv, s.dist v = some dv ∧ ∀ k u, (k, u) ∈ s.pq → dv ≤ k
  prevInv : ∀ v u, s.prev v = some u →
    u ∈ s.seen ∧ ∃ du, s.dist u = some du ∧ s.dist v = some (du + g.w u v)
  prevRank : ∀ v u, v ∈ s.seen → s.prev v = some u → rankIn s.seen u < rankIn s.seen v
  distPrev : ∀ v dv, v ≠ start → s.dist v = some dv → (s.prev v).isSome
  distStart : s.dist start = some 0
  prevStart : s.prev start = none
  seenNodes : ∀ v ∈ s.seen, v ∈ g.nodes
  seenNodup : s.seen.Nodup
  distReach : ∀ v dv, s.dist v = some dv → Reach g start v ∧ 0 ≤ dv

/-- Every settled node has all its neighbors reached.  This holds between
loop iterations of the search (it is momentarily suspended for the
destination, which halts before relaxing its neighbors). -/
def SeenClosed (g : Graph) (s : SState) : Prop :=
  ∀ u ∈ s.seen, ∀ v ∈ g.adj u, s.dist v ≠ none

theorem init_inv (g : Graph) (start : Nat) (hstart : start ∈ g.nodes) :
    Inv g start (initState start) := by
  constructor
  · exact List.pairwise_singleton _ _
  · intro k v hkv
    have : (k, v) = ((0 : ℚ), start) := by simpa [initState] using hkv
    rcases Prod.mk.injEq .. ▸ this with ⟨hk, hv⟩
    subst hk
    subst hv
    exact ⟨le_refl 0, hstart, 0, by simp [initState], le_refl 0⟩
  · intro v dv _ hdv
    by_cases hv : v = start
    · subst hv
      have : (0 : ℚ) = dv := by simpa [initState] using hdv
      subst this
      simp [initState]
    · simp [initState, hv] at hdv
  · intro v hv
    simp [initState] at hv
  · intro v u h
    simp [initState] at h
  · intro v u hv
    simp [initState] at hv
  · intro v dv hv hdv
    simp [initState, hv] at hdv
  · simp [initState]
  · rfl
  · intro v hv
    simp [initState] at hv
  · simp [initState]
  · intro v dv hdv
    by_cases hv : v = start
    · subst hv
      have : (0 : ℚ) = dv := by simpa [initState] using hdv
      exact this ▸ ⟨Reach.refl, le_refl 0⟩
    · simp [initState, hv] at hdv

theorem init_closed (g : Graph) (start : Nat) : SeenClosed g (initState start) := by
  intro u hu
  simp [initState] at hu

theorem pqInsert_length (x : ℚ × Nat) : ∀ (l : List (ℚ × Nat)),
    (pqInsert x l).length = l.length + 1 := by
  intro l
  induction l with
  | nil => rfl
  | cons y ys ih =>
    unfold pqInsert
    split
    · rfl
    · simp only [List.length_cons, ih]

theorem ltOpt_ne_none {q : ℚ} {o : Option ℚ} (h : ltOpt q o = false) : o ≠ none := by
  intro ho
  rw [ho] at h
  cases h

theorem ltOpt_some {q b : ℚ} : ltOpt q (some b) = true ↔ q < b := by
  simp [ltOpt]

/-- Preservation of the invariant by one relaxation of a neighbor `v` of
the just-settled node `u`, popped with key `d` (equal to its settled
distance).  Also returns: all settled distances stay at most `d`, the
settled distance of `u` is untouched, reached nodes stay reached, `v`
ends reached, and the frontier grows by at most one entry. -/
theorem relaxStep_inv (g : Graph) (start : Nat) (d : ℚ) (u : Nat) (s : SState) (v : Nat)
    (hwf : WF g) (hinv : Inv g start s)
    (hle : ∀ x ∈ s.seen, ∃ dx, s.dist x = some dx ∧ dx ≤ d)
    (hd : 0 ≤ d) (hu : u ∈ s.seen) (hdu : s.dist u = some d) (hadj : v ∈ g.adj u)
    (hv : v ∈ g.nodes) :
    Inv g start (relaxStep g d u s v).2 ∧
    (∀ x ∈ (relaxStep g d u s v).2.seen,
      ∃ dx, (relaxStep g d u s v).2.dist x = some dx ∧ dx ≤ d) ∧
    (relaxStep g d u s v).2.dist u = some d ∧
    (∀ x, s.dist x ≠ none → (relaxStep g d u s v).2.dist x ≠ none) ∧
    (relaxStep g d u s v).2.dist v ≠ none ∧
    (relaxStep g d u s v).2.pq.length ≤ s.pq.length + 1 := by
  by_cases hc : ltOpt (d + g.w u v) (s.dist v) = true
  case neg =>
    rw [Bool.not_eq_true] at hc
    have hres : relaxStep g d u s v = ([], s) := by
      unfold relaxStep
      rw [if_neg (by simp [hc])]
    rw [hres]
    exact ⟨hinv, hle, hdu, fun x h => h, ltOpt_ne_none hc, Nat.le_succ _⟩
  case pos =>
    have hw : 0 ≤ g.w u v := hwf.wNonneg u v
    have hnd : 0 ≤ d + g.w u v := add_nonneg hd hw
    have hvn : v ∉ s.seen := by
      intro hvs
      rcases hle v hvs with ⟨dx, hdx, hdxle⟩
      rw [hdx] at hc
      have : d + g.w u v < dx := of_decide_eq_true hc
      have : dx < dx := lt_of_le_of_lt (le_trans hdxle (le_add_of_nonneg_right hw)) this
      exact absurd this (lt_irrefl dx)
    have huv : u ≠ v := fun he => hvn (he ▸ hu)
    have hvstart : v ≠ start := by
      intro he
      have h0 : s.dist v = some 0 := by rw [he]; exact hinv.distStart
      rw [h0] at hc
      exact absurd (lt_of_le_of_lt hnd (ltOpt_some.mp hc)) (lt_irrefl 0)
    have hres : relaxStep g d u s v = ([Event.relax v],
        { s with
          dist := fun x => if x = v then some (d + g.w u v) else s.dist x
          prev := fun x => if x = v then some u else s.prev x
          pq := pqInsert (d + g.w u v, v) s.pq }) := by
      unfold relaxStep
      rw [if_pos hc]
    rw [hres]
    refine ⟨?_, ?_, ?_, ?_, ?_, ?_⟩
    · constructor
      · exact pqInsert_sorted hinv.sorted
      · intro k x hkx
        rcases mem_pqInsert.mp hkx with h1 | h1
        · obtain ⟨hk, hx⟩ := Prod.mk.inj h1
          subst hk
          subst hx
          exact ⟨hnd, hv, _, by simp, le_refl _⟩
        · rcases hinv.pqDom k x h1 with ⟨hk0, hxn, dx, hdx, hdxk⟩
          refine ⟨hk0, hxn, ?_⟩
          by_cases hxv : x = v
          · subst hxv
            refine ⟨d + g.w u x, by simp, ?_⟩
            rw [hdx] at hc
            exact le_trans (le_of_lt (ltOpt_some.mp hc)) hdxk
          · exact ⟨dx, by simp [hxv, hdx], hdxk⟩
      · intro x dx hxs hdx
        by_cases hxv : x = v
        · subst hxv
          have h2 : d + g.w u x = dx := by simpa using hdx
          subst h2
          exact mem_pqInsert.mpr (Or.inl rfl)
        · simp only [hxv, if_neg hxv] at hdx
          exact mem_pqInsert.mpr (Or.inr (hinv.reachedPQ x dx hxs hdx))
      · intro x hxs
        have hxv : x ≠ v := fun he => hvn (he ▸ hxs)
        rcases hinv.seenDist x hxs with ⟨dx, hdx, hdxle⟩
        rcases hle x hxs with ⟨dx', hdx', hdxle'⟩
        rw [hdx] at hdx'
        have hde : dx = dx' := Option.some.inj hdx'
        subst hde
        refine ⟨dx, by simp [hxv, hdx], ?_⟩
        intro k y hky
        rcases mem_pqInsert.mp hky with h1 | h1
        · obtain ⟨hk, _⟩ := Prod.mk.inj h1
          subst hk
          exact le_trans hdxle' (le_add_of_nonneg_right hw)
        · exact hdxle k y h1
      · intro x u' hxu'
        by_cases hxv : x = v
        · subst hxv
          have h2 : u = u' := by simpa using hxu'
          subst h2
          exact ⟨hu, d, by simp [huv, hdu], by simp⟩
        · simp only [if_neg hxv] at hxu'
          rcases hinv.prevInv x u' hxu' with ⟨hu's, du', hdu', hdx⟩
          have hu'v : u' ≠ v := fun he => hvn (he ▸ hu's)
          exact ⟨hu's, du', by simp [hu'v, hdu'], by simp [hxv, hdx]⟩
      · intro x u' hxs hxu'
        have hxv : x ≠ v := fun he => hvn (he ▸ hxs)
        simp only [if_neg hxv] at hxu'
        exact hinv.prevRank x u' hxs hxu'
      · intro x dx hxstart hdx
        by_cases hxv : x = v
        · subst hxv
          simp
        · simp only [if_neg hxv] at hdx ⊢
          exact hinv.distPrev x dx hxstart hdx
      · have : start ≠ v := fun he => hvstart he.symm
        simp only [if_neg this]
        exact hinv.distStart
      · have : start ≠ v := fun he => hvstart he.symm
        simp only [if_neg this]
        exact hinv.prevStart
      · exact hinv.seenNodes
      · exact hinv.seenNodup
      · intro x dx hdx
        by_cases hxv : x = v
        · subst hxv
          have h2 : d + g.w u x = dx := by simpa using hdx
          subst h2
          exact ⟨Reach.step (hinv.distReach u d hdu).1 hadj, hnd⟩
        · simp only [if_neg hxv] at hdx
          exact hinv.distReach x dx hdx
    · intro x hxs
      have hxv : x ≠ v := fun he => hvn (he ▸ hxs)
      rcases hle x hxs with ⟨dx, hdx, hdxle⟩
      exact ⟨dx, by simp [hxv, hdx], hdxle⟩
    · simp [huv, hdu]
    · intro x hx
      by_cases hxv : x = v
      · subst hxv
        simp
      · simpa [hxv] using hx
    · simp
    · rw [pqInsert_length]

/-- Preservation of the invariant by the whole neighbor loop of a settle
step. -/
theorem relaxAll_inv (g : Graph) (start : Nat) (d : ℚ) (u : Nat)
    (hwf : WF g) (hd : 0 ≤ d) :
    ∀ (vs : List Nat) (s : SState), (∀ v ∈ vs, v ∈ g.adj u) → (∀ v ∈ vs, v ∈ g.nodes) →
    Inv g start s →
    (∀ x ∈ s.seen, ∃ dx, s.dist x = some dx ∧ dx ≤ d) →
    u ∈ s.seen → s.dist u = some d →
    Inv g start (relaxAll g d u vs s).2 ∧
    (∀ x, s.dist x ≠ none → (relaxAll g d u vs s).2.dist x ≠ none) ∧
    (∀ v ∈ vs, (relaxAll g d u vs s).2.dist v ≠ none) ∧
    (relaxAll g d u vs s).2.pq.length ≤ s.pq.length + vs.length := by
  intro vs
  induction vs with
  | nil =>
    intro s _ _ hinv hle hu hdu
    exact ⟨hinv, fun x h => h, fun v hv => absurd hv (List.not_mem_nil v), Nat.le_add_right _ _⟩
  | cons v vs ih =>
    intro s hadj hnodes hinv hle hu hdu
    have hstep := relaxStep_inv g start d u s v hwf hinv hle hd hu hdu
      (hadj v (List.mem_cons_self v vs)) (hnodes v (List.mem_cons_self v vs))
    rcases hstep with ⟨hinv1, hle1, hdu1, hmono1, hv1, hpq1⟩
    have hu1 : u ∈ (relaxStep g d u s v).2.seen := by rw [relaxStep_seen]; exact hu
    have hrec := ih (relaxStep g d u s v).2
      (fun x hx => hadj x (List.mem_cons_of_mem v hx))
      (fun x hx => hnodes x (List.mem_cons_of_mem v hx))
      hinv1 hle1 hu1 hdu1
    rcases hrec with ⟨hinv2, hmono2, hrch2, hpq2⟩
    have hres : relaxAll g d u (v :: vs) s =
        ((relaxStep g d u s v).1 ++ (relaxAll g d u vs (relaxStep g d u s v).2).1,
         (relaxAll g d u vs (relaxStep g d u s v).2).2) := rfl
    rw [hres]
    refine ⟨hinv2, ?_, ?_, ?_⟩
    · intro x hx
      exact hmono2 x (hmono1 x hx)
    · intro x hx
      rcases List.mem_cons.mp hx with h1 | h1
      · subst h1
        exact hmono2 x hv1
      · exact hrch2 x h1
    · calc (relaxAll g d u vs (relaxStep g d u s v).2).2.pq.length
          ≤ (relaxStep g d u s v).2.pq.length + vs.length := hpq2
        _ ≤ s.pq.length + 1 + vs.length := Nat.add_le_add_right hpq1 _
        _ = s.pq.length + (v :: vs).length := by simp [List.length_cons]; omega

/-- Preservation of the invariant by settling the popped node `u`: the
popped key `d` is exactly its settled (and final) distance, and all
settled distances are at most `d`. -/
theorem settle_inv (g : Graph) (start : Nat) {s : SState} {d : ℚ} {u : Nat}
    {rest : List (ℚ × Nat)} (hinv : Inv g start s) (hpq : s.pq = (d, u) :: rest)
    (hu : u ∉ s.seen) :
    Inv g start { s with pq := rest, seen := s.seen ++ [u] } ∧
    s.dist u = some d ∧ 0 ≤ d ∧ u ∈ g.nodes ∧
    (∀ x ∈ s.seen ++ [u], ∃ dx, s.dist x = some dx ∧ dx ≤ d) := by
  have hmem : (d, u) ∈ s.pq := by rw [hpq]; exact List.mem_cons_self _ _
  rcases hinv.pqDom d u hmem with ⟨hd0, hun, du, hdu, hdud⟩
  have hhead : ∀ b ∈ rest, pqLe (d, u) b = true := by
    have := hinv.sorted
    rw [hpq] at this
    exact (List.pairwise_cons.mp this).1
  have htail : PQSorted rest := by
    have := hinv.sorted
    rw [hpq] at this
    exact (List.pairwise_cons.mp this).2
  have hdeq : s.dist u = some d := by
    have hentry := hinv.reachedPQ u du hu hdu
    rw [hpq] at hentry
    rcases List.mem_cons.mp hentry with h1 | h1
    · obtain ⟨h2, _⟩ := Prod.mk.inj h1
      rw [hdu, h2]
    · have := pqLe_fst (hhead _ h1)
      have hde : d = du := le_antisymm this hdud
      rw [hdu, hde]
  have hle : ∀ x ∈ s.seen ++ [u], ∃ dx, s.dist x = some dx ∧ dx ≤ d := by
    intro x hx
    rcases List.mem_append.mp hx with h1 | h1
    · rcases hinv.seenDist x h1 with ⟨dx, hdx, hdxle⟩
      exact ⟨dx, hdx, hdxle d u hmem⟩
    · have hxu : x = u := by simpa using h1
      subst hxu
      exact ⟨d, hdeq, le_refl d⟩
  refine ⟨?_, hdeq, hd0, hun, hle⟩
  constructor
  · exact htail
  · intro k x hkx
    exact hinv.pqDom k x (by rw [hpq]; exact List.mem_cons_of_mem _ hkx)
  · intro x dx hxs hdx
    have hxseen : x ∉ s.seen := fun h => hxs (List.mem_append_left _ h)
    have hxu : x ≠ u := fun h => hxs (List.mem_append_right _ (h ▸ List.mem_singleton_self u))
    have hentry := hinv.reachedPQ x dx hxseen hdx
    rw [hpq] at hentry
    rcases List.mem_cons.mp hentry with h1 | h1
    · obtain ⟨_, h2⟩ := Prod.mk.inj h1
      exact absurd h2 hxu
    · exact h1
  · intro x hx
    rcases List.mem_append.mp hx with h1 | h1
    · rcases hinv.seenDist x h1 with ⟨dx, hdx, hdxle⟩
      exact ⟨dx, hdx, fun k y hky => hdxle k y (by rw [hpq]; exact List.mem_cons_of_mem _ hky)⟩
    · have hxu : x = u := by simpa using h1
      subst hxu
      exact ⟨d, hdeq, fun k y hky => pqLe_fst (hhead (k, y) hky)⟩
  · intro x u' hxu'
    rcases hinv.prevInv x u' hxu' with ⟨hu's, hrest⟩
    exact ⟨List.mem_append_left _ hu's, hrest⟩
  · intro x u' hxs hxu'
    rcases hinv.prevInv x u' hxu' with ⟨hu's, _⟩
    rcases List.mem_append.mp hxs with h1 | h1
    · rw [rankIn_append_left [u] hu's, rankIn_append_left [u] h1]
      exact hinv.prevRank x u' h1 hxu'
    · have hxu : x = u := by simpa using h1
      subst hxu
      rw [rankIn_append_left [x] hu's, rankIn_append_self hu]
      exact rankIn_lt_length hu's
  · exact hinv.distPrev
  · exact hinv.distStart
  · exact hinv.prevStart
  · intro x hx
    rcases List.mem_append.mp hx with h1 | h1
    · exact hinv.seenNodes x h1
    · have hxu : x = u := by simpa using h1
      subst hxu
      exact hun
  · rw [List.nodup_append]
    exact ⟨hinv.seenNodup, List.nodup_singleton u, by simpa using hu⟩
  · exact hinv.distReach

/-- Preservation of the invariant by discarding a stale frontier entry. -/
theorem skip_inv (g : Graph) (start : Nat) {s : SState} {d : ℚ} {u : Nat}
    {rest : List (ℚ × Nat)} (hinv : Inv g start s) (hpq : s.pq = (d, u) :: rest)
    (hu : u ∈ s.seen) :
    Inv g start { s with pq := rest } := by
  have htail : PQSorted rest := by
    have := hinv.sorted
    rw [hpq] at this
    exact (List.pairwise_cons.mp this).2
  constructor
  · exact htail
  · intro k x hkx
    exact hinv.pqDom k x (by rw [hpq]; exact List.mem_cons_of_mem _ hkx)
  · intro x dx hxs hdx
    have hentry := hinv.reachedPQ x dx hxs hdx
    rw [hpq] at hentry
    rcases List.mem_cons.mp hentry with h1 | h1
    · obtain ⟨_, h2⟩ := Prod.mk.inj h1
      exact absurd (h2 ▸ hu) hxs
    · exact h1
  · intro x hx
    rcases hinv.seenDist x hx with ⟨dx, hdx, hdxle⟩
    exact ⟨dx, hdx, fun k y hky => hdxle k y (by rw [hpq]; exact List.mem_cons_of_mem _ hky)⟩
  · exact hinv.prevInv
  · exact hinv.prevRank
  · exact hinv.distPrev
  · exact hinv.distStart
  · exact hinv.prevStart
  · exact hinv.seenNodes
  · exact hinv.seenNodup
  · exact hinv.distReach

/-! ### Termination measure -/

/-- Loop measure: unsettled-node budget times the per-settle frontier
growth bound, plus the current frontier size. -/
def searchMeasure (g : Graph) (s : SState) : Nat :=
  (g.nodes.length - s.seen.length) * (maxAdjDeg g + 1) + s.pq.length

theorem foldr_max_le (f : Nat → Nat) : ∀ (l : List Nat) (u : Nat), u ∈ l →
    f u ≤ (l.map f).foldr Nat.max 0 := by
  intro l
  induction l with
  | nil => intro u hu; cases hu
  | cons x xs ih =>
    intro u hu
    rcases List.mem_cons.mp hu with h1 | h1
    · subst h1
      exact Nat.le_max_left _ _
    · exact le_trans (ih u h1) (Nat.le_max_right _ _)

theorem maxAdjDeg_bound (g : Graph) {u : Nat} (hu : u ∈ g.nodes) :
    (g.adj u).length ≤ maxAdjDeg g :=
  foldr_max_le (fun n => (g.adj n).length) g.nodes u hu

theorem nodup_subset_length {l l' : List Nat} (hnd : l.Nodup) (hsub : ∀ x ∈ l, x ∈ l') :
    l.length ≤ l'.length :=
  (hnd.subperm fun {x} hx => hsub x hx).length_le

theorem measure_skip (g : Graph) {s : SState} {d : ℚ} {u : Nat} {rest : List (ℚ × Nat)}
    (hpq : s.pq = (d, u) :: rest) :
    searchMeasure g { s with pq := rest } < searchMeasure g s := by
  unfold searchMeasure
  rw [hpq]
  simp only [List.length_cons]
  omega

theorem measure_settle (g : Graph) {s s2 : SState} {d : ℚ} {u : Nat} {rest : List (ℚ × Nat)}
    (hpq : s.pq = (d, u) :: rest) (hu : u ∉ s.seen) (hun : u ∈ g.nodes)
    (hnd : s.seen.Nodup) (hsub : ∀ v ∈ s.seen, v ∈ g.nodes)
    (hseen2 : s2.seen = s.seen ++ [u])
    (hpq2 : s2.pq.length ≤ rest.length + (g.adj u).length) :
    searchMeasure g s2 < searchMeasure g s := by
  have hkN : s.seen.length + 1 ≤ g.nodes.length := by
    have hnd2 : (s.seen ++ [u]).Nodup := by
      rw [List.nodup_append]
      exact ⟨hnd, List.nodup_singleton u, by simpa using hu⟩
    have hsub2 : ∀ x ∈ s.seen ++ [u], x ∈ g.nodes := by
      intro x hx
      rcases List.mem_append.mp hx with h1 | h1
      · exact hsub x h1
      · have : x = u := by simpa using h1
        exact this ▸ hun
    have := nodup_subset_length hnd2 hsub2
    simpa using this
  have hD : (g.adj u).length ≤ maxAdjDeg g := maxAdjDeg_bound g hun
  unfold searchMeasure
  rw [hpq, hseen2]
  simp only [List.length_cons, List.length_append, List.length_singleton, List.length_nil,
    Nat.zero_add]
  obtain ⟨b, hb⟩ : ∃ b, g.nodes.length - s.seen.length = b + 1 :=
    ⟨g.nodes.length - s.seen.length - 1, by omega⟩
  have hb2 : g.nodes.length - (s.seen.length + 1) = b := by omega
  rw [hb, hb2, Nat.succ_mul]
  have := le_trans hpq2 (Nat.add_le_add_left hD _)
  generalize b * (maxAdjDeg g + 1) = t at *
  omega

/-! ### Path reconstruction under the invariant -/

theorem walkChain_succ_none {prev : Nat → Option Nat} {cur fuel : Nat}
    (h : prev cur = none) : walkChain prev (fuel + 1) cur = [] := by
  unfold walkChain
  rw [h]

theorem walkChain_succ_some {prev : Nat → Option Nat} {cur p fuel : Nat}
    (h : prev cur = some p) : walkChain prev (fuel + 1) cur = cur :: walkChain prev fuel p := by
  conv_lhs => rw [walkChain]
  rw [h]

theorem pathWeight_concat (g : Graph) : ∀ (xs : List Nat) (l c : Nat),
    xs.getLast? = some l → pathWeight g (xs ++ [c]) = pathWeight g xs + g.w l c := by
  intro xs
  induction xs with
  | nil => intro l c h; cases h
  | cons x ys ih =>
    intro l c h
    cases ys with
    | nil =>
      have hx : x = l := by simpa using h
      subst hx
      show g.w x c + pathWeight g [c] = pathWeight g [x] + g.w x c
      show g.w x c + 0 = 0 + g.w x c
      rw [zero_add, add_zero]
    | cons y zs =>
      have h2 : (y :: zs).getLast? = some l := by
        rw [← h, List.getLast?_cons_cons]
      show g.w x y + pathWeight g ((y :: zs) ++ [c]) = g.w x y + pathWeight g (y :: zs) + g.w l c
      rw [ih l c h2, add_assoc]

/-- Correctness of `reconstructPath` at any settled node: under the
invariant, the reconstructed path starts at the origin, ends at the
requested node, and its summed edge weight is exactly the node's recorded
distance.  The fuel only needs to exceed the node's settle rank. -/
theorem recon_spec (g : Graph) (start : Nat) (s : SState) (hinv : Inv g start s) :
    ∀ (fuel cur : Nat), cur ∈ s.seen → rankIn s.seen cur < fuel →
      (reconstructPath s.prev start cur fuel).head? = some start ∧
      (reconstructPath s.prev start cur fuel).getLast? = some cur ∧
      ∃ dc, s.dist cur = some dc ∧ pathWeight g (reconstructPath s.prev start cur fuel) = dc := by
  intro fuel
  induction fuel with
  | zero => intro cur _ h; omega
  | succ fuel ih =>
    intro cur hcur hrank
    cases hp : s.prev cur with
    | none =>
      obtain ⟨dc, hdc, _⟩ := hinv.seenDist cur hcur
      have hcs : cur = start := by
        by_contra hne
        have := hinv.distPrev cur dc hne hdc
        rw [hp] at this
        cases this
      subst hcs
      have hwc : walkChain s.prev (fuel + 1) cur = [] := walkChain_succ_none hp
      have hpath : reconstructPath s.prev cur cur (fuel + 1) = [cur] := by
        unfold reconstructPath
        rw [hwc]
        rfl
      rw [hpath]
      have hdc0 : s.dist cur = some 0 := hinv.distStart
      exact ⟨rfl, rfl, 0, hdc0, rfl⟩
    | some p =>
      rcases hinv.prevInv cur p hp with ⟨hps, dp, hdp, hdcur⟩
      have hrankp : rankIn s.seen p < fuel :=
        lt_of_lt_of_le (hinv.prevRank cur p hcur hp) (Nat.lt_succ_iff.mp hrank)
      rcases ih p hps hrankp with ⟨hh, hl, dc', hdc', hw⟩
      have hunfold : reconstructPath s.prev start cur (fuel + 1) =
          reconstructPath s.prev start p fuel ++ [cur] := by
        unfold reconstructPath
        rw [walkChain_succ_some hp]
        rw [show (cur :: walkChain s.prev fuel p) ++ [start]
              = cur :: (walkChain s.prev fuel p ++ [start]) from rfl]
        rw [List.reverse_cons]
      rw [hunfold]
      have hdceq : dp = dc' := by
        rw [hdp] at hdc'
        exact Option.some.inj hdc'
      refine ⟨?_, List.getLast?_concat _, dp + g.w p cur, hdcur, ?_⟩
      · rw [List.head?_append, hh]
        rfl
      · rw [pathWeight_concat g _ p cur hl, hw, ← hdceq]

theorem glast_append_right {α : Type} (l₁ : List α) {l₂ : List α} (h : l₂ ≠ []) :
    (l₁ ++ l₂).getLast? = l₂.getLast? := by
  rw [List.getLast?_append]
  obtain ⟨a, ha⟩ := Option.isSome_iff_exists.mp (List.getLast?_isSome.mpr h)
  rw [ha]
  rfl

/-- The master run lemma: from any state satisfying the invariant, with
enough fuel, the loop halts and its event tail is either a `Found` with
the reconstructed path (the destination having been settled), or a single
terminal `Exhausted` with an empty frontier, no `Found` anywhere, and the
destination never settled. -/
theorem loop_master (g : Graph) (start target : Nat) (hwf : WF g) :
    ∀ (fuel : Nat) (s : SState), Inv g start s → SeenClosed g s → target ∉ s.seen →
      searchMeasure g s < fuel →
      ∃ evs s', dijkstraLoop g start target fuel s = (evs, s') ∧
        ((∃ p, evs.getLast? = some (Event.done p) ∧ Inv g start s' ∧ target ∈ s'.seen ∧
           p = reconstructPath s'.prev start target s'.seen.length) ∨
         (evs.getLast? = some Event.noPath ∧ evs.count Event.noPath = 1 ∧
          (∀ p, Event.done p ∉ evs) ∧ Inv g start s' ∧ SeenClosed g s' ∧
          s'.pq = [] ∧ target ∉ s'.seen)) := by
  intro fuel
  induction fuel with
  | zero =>
    intro s _ _ _ hm
    omega
  | succ fuel ih =>
    intro s hinv hcl htg hm
    rcases hpq : s.pq with _ | ⟨⟨d, u⟩, rest⟩
    · refine ⟨[Event.noPath], s, ?_, Or.inr ⟨rfl, by simp, ?_, hinv, hcl, hpq, htg⟩⟩
      · rw [dijkstraLoop_succ, dijkstraStep_nil g start target hpq]
      · intro p hp
        simp at hp
    · by_cases hus : u ∈ s.seen
      · have hm1 : searchMeasure g { s with pq := rest } < fuel :=
          lt_of_lt_of_le (measure_skip g hpq) (Nat.lt_succ_iff.mp hm)
        obtain ⟨evs, s', heq, hbr⟩ :=
          ih { s with pq := rest } (skip_inv g start hinv hpq hus) hcl htg hm1
        refine ⟨evs, s', ?_, hbr⟩
        rw [dijkstraLoop_succ, dijkstraStep_skip g start target hpq hus]
        simp only [heq, List.nil_append]
      · rcases settle_inv g start hinv hpq hus with ⟨hinv1, hdu, hd0, hun, hle⟩
        by_cases hut : u = target
        · refine ⟨[Event.visit u,
            Event.done (reconstructPath s.prev start target (s.seen.length + 1))],
            { s with pq := rest, seen := s.seen ++ [u] }, ?_, Or.inl ⟨_, rfl, hinv1, ?_, ?_⟩⟩
          · rw [dijkstraLoop_succ, dijkstraStep_found g start target hpq hus hut]
          · rw [← hut]
            simp
          · simp
        · have hadj : ∀ v ∈ g.adj u, v ∈ g.adj u := fun v hv => hv
          have hnodes : ∀ v ∈ g.adj u, v ∈ g.nodes := fun v hv => hwf.adjClosed u hun v hv
          have hu1 : u ∈ ({ s with pq := rest, seen := s.seen ++ [u] } : SState).seen := by
            simp
          rcases relaxAll_inv g start d u hwf hd0 (g.adj u)
              { s with pq := rest, seen := s.seen ++ [u] } hadj hnodes hinv1 hle hu1 hdu with
            ⟨hinv2, hmono2, hrch2, hpql2⟩
          set s1 : SState := { s with pq := rest, seen := s.seen ++ [u] } with hs1
          set s2 := (relaxAll g d u (g.adj u) s1).2 with hs2
          have hseen2 : s2.seen = s.seen ++ [u] := by
            rw [hs2, relaxAll_seen]
          have hcl2 : SeenClosed g s2 := by
            intro x hx v hv
            rw [hseen2] at hx
            rcases List.mem_append.mp hx with h1 | h1
            · exact hmono2 v (hcl x h1 v hv)
            · have hxu : x = u := by simpa using h1
              subst hxu
              exact hrch2 v hv
          have htg2 : target ∉ s2.seen := by
            rw [hseen2]
            intro hx
            rcases List.mem_append.mp hx with h1 | h1
            · exact htg h1
            · have : target = u := by simpa using h1
              exact hut this.symm
          have hm2 : searchMeasure g s2 < fuel := by
            refine lt_of_lt_of_le ?_ (Nat.lt_succ_iff.mp hm)
            refine measure_settle g hpq hus hun hinv.seenNodup hinv.seenNodes hseen2 ?_
            exact hpql2
          obtain ⟨evs, s', heq, hbr⟩ := ih s2 hinv2 hcl2 htg2 hm2
          have hpre : ∀ e ∈ Event.visit u :: (relaxAll g d u (g.adj u) s1).1,
              e = Event.visit u ∨ ∃ v, e = Event.relax v := by
            intro e he
            rcases List.mem_cons.mp he with h1 | h1
            · exact Or.inl h1
            · exact Or.inr (relaxAll_events g d u (g.adj u) s1 e h1)
          refine ⟨(Event.visit u :: (relaxAll g d u (g.adj u) s1).1) ++ evs, s', ?_, ?_⟩
          · rw [dijkstraLoop_succ, dijkstraStep_settle g start target hpq hus hut]
            simp only [← hs1, ← hs2, heq]
          · rcases hbr with ⟨p, hgl, hinv', htg', hp⟩ | ⟨hgl, hcount, hnodone, hinv', hcl', hpq', htg'⟩
            · have hne : evs ≠ [] := by
                intro h0
                rw [h0] at hgl
                cases hgl
              exact Or.inl ⟨p, by rw [glast_append_right _ hne]; exact hgl, hinv', htg', hp⟩
            · have hne : evs ≠ [] := by
                intro h0
                rw [h0] at hgl
                cases hgl
              have hprecount : (Event.visit u :: (relaxAll g d u (g.adj u) s1).1).count
                  Event.noPath = 0 := by
                rw [List.count_eq_zero]
                intro he
                rcases hpre Event.noPath he with h1 | ⟨v, h1⟩ <;> cases h1
              refine Or.inr ⟨by rw [glast_append_right _ hne]; exact hgl, ?_, ?_, hinv', hcl', hpq', htg'⟩
              · rw [List.count_append, hprecount, hcount]
              · intro p hp
                rcases List.mem_append.mp hp with h1 | h1
                · rcases hpre _ h1 with h2 | ⟨v, h2⟩ <;> cases h2
                · exact hnodone p h1

theorem measure_init (g : Graph) (start : Nat) :
    searchMeasure g (initState start) < dijkstraFuel g := by
  unfold searchMeasure initState dijkstraFuel
  simp

/-- A run from the initial state ends in one of the two terminal shapes. -/
theorem run_master (g : Graph) (start target : Nat) (hwf : WF g) (hstart : start ∈ g.nodes) :
    ∃ evs s', dijkstraRun g start target = (evs, s') ∧
      ((∃ p, evs.getLast? = some (Event.done p) ∧ Inv g start s' ∧ target ∈ s'.seen ∧
         p = reconstructPath s'.prev start target s'.seen.length) ∨
       (evs.getLast? = some Event.noPath ∧ evs.count Event.noPath = 1 ∧
        (∀ p, Event.done p ∉ evs) ∧ Inv g start s' ∧ SeenClosed g s' ∧
        s'.pq = [] ∧ target ∉ s'.seen)) :=
  loop_master g start target hwf (dijkstraFuel g) (initState start)
    (init_inv g start hstart) (init_closed g start) (List.not_mem_nil target)
    (measure_init g start)

/-- At exhaustion (empty frontier) every reachable node is settled. -/
theorem reach_settled (g : Graph) (start : Nat) {s : SState} (hinv : Inv g start s)
    (hcl : SeenClosed g s) (hpq : s.pq = []) :
    ∀ v, Reach g start v → v ∈ s.seen := by
  intro v hv
  induction hv with
  | refl =>
    by_contra h
    have := hinv.reachedPQ start 0 h hinv.distStart
    rw [hpq] at this
    cases this
  | @step u v' h hadj ih =>
    have hne := hcl u ih v' hadj
    rcases Option.ne_none_iff_exists.mp hne with ⟨dv, hdv⟩
    by_contra hvn
    have := hinv.reachedPQ v' dv hvn hdv.symm
    rw [hpq] at this
    cases this

/-- With an unreachable destination, the run's event list ends in a
single `Exhausted` and contains no `Found`. -/
theorem run_unreachable (g : Graph) (start target : Nat) (hwf : WF g)
    (hstart : start ∈ g.nodes) (hur : ¬ Reach g start target) :
    (dijkstraRun g start target).1.getLast? = some Event.noPath ∧
    (dijkstraRun g start target).1.count Event.noPath = 1 ∧
    ∀ p, Event.done p ∉ (dijkstraRun g start target).1 := by
  obtain ⟨evs, s', heq, hbr⟩ := run_master g start target hwf hstart
  rw [heq]
  rcases hbr with ⟨p, _, hinv', htg', _⟩ | ⟨hgl, hcount, hnodone, _, _, _, _⟩
  · exfalso
    obtain ⟨dt, hdt, _⟩ := hinv'.seenDist target htg'
    exact hur (hinv'.distReach target dt hdt).1
  · exact ⟨hgl, hcount, hnodone⟩

/-- Shared with the distance-matrix analysis: the caught no-path case of
`dijkstra_shortest_path` yields the empty list. -/
theorem dsp_unreachable (g : Graph) (a b : Nat) (hwf : WF g) (ha : a ∈ g.nodes)
    (hur : ¬ Reach g a b) : dijkstra_shortest_path g a b = [] := by
  obtain ⟨hgl, _, _⟩ := run_unreachable g a b hwf ha hur
  unfold dijkstra_shortest_path
  rw [hgl]

/-! ### C3: unreachable destination -/

/-- C3.  For every well-formed graph and origin/destination pair with the
destination unreachable, the event sequence ends in a terminal
`Exhausted` event, contains exactly one `Exhausted`, and contains no
`Found` event: a normal terminal outcome, not an error. -/
theorem C3_unreachable_is_exhausted (g : Graph) (origin dest : Nat) (hwf : WF g)
    (ho : origin ∈ g.nodes) (hur : ¬ Reach g origin dest) :
    (dijkstra_generator g origin dest).getLast? = some Event.noPath ∧
    (dijkstra_generator g origin dest).count Event.noPath = 1 ∧
    ∀ p, Event.done p ∉ dijkstra_generator g origin dest :=
  run_unreachable g origin dest hwf ho hur

theorem gNone_wf : WF gNone := by
  constructor
  · intro u _ v hv
    simp [gNone] at hv
  · intro u v
    norm_num [gNone]

theorem gNone_reach_eq (v : Nat) (h : Reach gNone 0 v) : v = 0 := by
  induction h with
  | refl => rfl
  | step _ hadj _ =>
    simp [gNone] at hadj

theorem gNone_unreachable : ¬ Reach gNone 0 1 := by
  intro h
  have := gNone_reach_eq 1 h
  omega

/-- C3 witness: the theorem applied to the concrete edgeless two-node
graph, whose node 1 is unreachable from node 0. -/
theorem C3_unreachable_is_exhausted_witness :
    (dijkstra_generator gNone 0 1).getLast? = some Event.noPath ∧
    (dijkstra_generator gNone 0 1).count Event.noPath = 1 ∧
    ∀ p, Event.done p ∉ dijkstra_generator gNone 0 1 :=
  C3_unreachable_is_exhausted gNone 0 1 gNone_wf (by decide) gNone_unreachable

/-! ### C1: the found path is anchored and its weight is the recorded distance -/

/-- C1.  For every well-formed graph and reachable origin/destination
pair, the run terminates with a `Found` event whose path starts at the
origin, ends at the destination, and whose summed edge weight equals the
final `dist[destination]` held by the engine when the destination was
settled (the run's final state is exactly the state at that moment). -/
theorem C1_found_path_correct (g : Graph) (origin dest : Nat) (hwf : WF g)
    (ho : origin ∈ g.nodes) (hreach : Reach g origin dest) :
    ∃ p dt, (dijkstra_generator g origin dest).getLast? = some (Event.done p) ∧
      p.head? = some origin ∧ p.getLast? = some dest ∧
      (dijkstraRun g origin dest).2.dist dest = some dt ∧
      pathWeight g p = dt := by
  obtain ⟨evs, s', heq, hbr⟩ := run_master g origin dest hwf ho
  rcases hbr with ⟨p, hgl, hinv', htg', hp⟩ | ⟨_, _, _, hinv', hcl', hpq', htg'⟩
  · have hrec := recon_spec g origin s' hinv' s'.seen.length dest htg'
      (rankIn_lt_length htg')
    rcases hrec with ⟨hhead, hlast, dt, hdt, hwt⟩
    refine ⟨p, dt, ?_, ?_, ?_, ?_, ?_⟩
    · show (dijkstraRun g origin dest).1.getLast? = some (Event.done p)
      rw [heq]
      exact hgl
    · rw [hp]; exact hhead
    · rw [hp]; exact hlast
    · rw [heq]; exact hdt
    · rw [hp]; exact hwt
  · exact absurd (reach_settled g origin hinv' hcl' hpq' dest hreach) htg'

/-- Concrete two-node graph with the single edge 0-1 of weight 1. -/
def gPath : Graph :=
  { nodes := [0, 1]
    adj := fun n =>
      match n with
      | 0 => [1]
      | 1 => [0]
      | _ => []
    w := fun _ _ => 1 }

theorem gPath_wf : WF gPath := by
  constructor
  · intro u hu v hv
    have hu2 : u = 0 ∨ u = 1 := by simpa [gPath] using hu
    rcases hu2 with rfl | rfl
    · have : v = 1 := by simpa [gPath] using hv
      subst this
      simp [gPath]
    · have : v = 0 := by simpa [gPath] using hv
      subst this
      simp [gPath]
  · intro u v
    norm_num [gPath]

theorem gPath_reach : Reach gPath 0 1 :=
  Reach.step Reach.refl (by simp [gPath])

/-- C1 witness: the theorem applied to the concrete one-edge graph. -/
theorem C1_found_path_correct_witness :
    ∃ p dt, (dijkstra_generator gPath 0 1).getLast? = some (Event.done p) ∧
      p.head? = some 0 ∧ p.getLast? = some 1 ∧
      (dijkstraRun gPath 0 1).2.dist 1 = some dt ∧
      pathWeight gPath p = dt :=
  C1_found_path_correct gPath 0 1 gPath_wf (by decide) gPath_reach

/-! ### C7 amended: the unreached case returns silently -/

/-- C7 amended.  When path reconstruction is requested for a destination
unreachable from the source, `dijkstra_shortest_path` catches the no-path
exception and returns the empty path, and `build_full_path`'s extension
step silently skips such a segment, returning the partial route built so
far — the operation does not abort. -/
theorem C7_unreached_destination_skipped :
    (∀ (g : Graph) (a b : Nat), WF g → a ∈ g.nodes → ¬ Reach g a b →
      dijkstra_shortest_path g a b = []) ∧
    (∀ (g : Graph) (base : Nat) (points full : List Nat) (idx : Nat),
      dijkstra_shortest_path g (full.getLastD base) (points.getD idx base) = [] →
      extend_full_path g base points full idx = full) := by
  constructor
  · exact fun g a b hwf ha hur => dsp_unreachable g a b hwf ha hur
  · intro g base points full idx h
    unfold extend_full_path
    rw [h]
    simp

/-- C7 amended witness: applied at the edgeless two-node graph — the
shortest-path call returns `[]` and the route extension returns the
partial route `[0]` unchanged. -/
theorem C7_unreached_destination_skipped_witness :
    dijkstra_shortest_path gNone 0 1 = [] ∧
    extend_full_path gNone 0 [0, 1] [0] 1 = [0] := by
  have h1 := C7_unreached_destination_skipped.1 gNone 0 1 gNone_wf (by decide) gNone_unreachable
  refine ⟨h1, ?_⟩
  exact C7_unreached_destination_skipped.2 gNone 0 [0, 1] [0] 1 h1

/-! ### C10: unreachable pairs get a zero-cost entry -/

/-- C10.  For every pair `(i, j)` of distinct point indices whose
shortest-path call finds no path (the destination is unreachable from the
source), the distance table records `0.0` and the path table records the
empty path: the caught no-path result is silently converted to a zero
cost rather than an infinity or an error. -/
theorem C10_unreachable_entry_zero (g : Graph) (points : List Nat) (i j : Nat)
    (hwf : WF g) (hi : points.getD i 0 ∈ g.nodes) (hij : i ≠ j)
    (hur : ¬ Reach g (points.getD i 0) (points.getD j 0)) :
    distance_matrix_entry g points i j = 0 ∧ path_matrix_entry g points i j = [] := by
  have hdsp := dsp_unreachable g (points.getD i 0) (points.getD j 0) hwf hi hur
  constructor
  · unfold distance_matrix_entry
    rw [if_neg hij, hdsp]
    rfl
  · unfold path_matrix_entry
    rw [if_neg hij, hdsp]

/-- C10 witness: applied at the edgeless two-node graph with the point
list `[0, 1]`. -/
theorem C10_unreachable_entry_zero_witness :
    distance_matrix_entry gNone [0, 1] 0 1 = 0 ∧ path_matrix_entry gNone [0, 1] 0 1 = [] :=
  C10_unreachable_entry_zero gNone [0, 1] 0 1 gNone_wf (by decide) (by decide)
    gNone_unreachable

/-! ### Permutation enumeration: soundness and completeness -/

theorem sel_sound : ∀ {l : List Nat} {p : Nat × List Nat}, p ∈ selections l →
    (p.1 :: p.2).Perm l ∧ p.2.length + 1 = l.length := by
  intro l
  induction l with
  | nil => intro p hp; cases hp
  | cons x xs ih =>
    intro p hp
    rcases List.mem_cons.mp hp with h1 | h1
    · subst h1
      exact ⟨List.Perm.refl _, rfl⟩
    · rcases List.mem_map.mp h1 with ⟨q, hq, rfl⟩
      rcases ih hq with ⟨hperm, hlen⟩
      refine ⟨(List.Perm.swap x q.1 q.2).trans (List.Perm.cons x hperm), ?_⟩
      simp only [List.length_cons] at hlen ⊢
      omega

theorem sel_complete : ∀ {l : List Nat} {y : Nat}, y ∈ l → (y, l.erase y) ∈ selections l := by
  intro l
  induction l with
  | nil => intro y hy; cases hy
  | cons x xs ih =>
    intro y hy
    by_cases hxy : x = y
    · subst hxy
      rw [List.erase_cons_head]
      exact List.mem_cons_self _ _
    · have hyx : y ∈ xs := by
        rcases List.mem_cons.mp hy with h1 | h1
        · exact absurd h1.symm hxy
        · exact h1
      rw [List.erase_cons_tail (by simpa using hxy)]
      exact List.mem_cons_of_mem _ (List.mem_map.mpr ⟨(y, xs.erase y), ih hyx, rfl⟩)

theorem perms_aux_mem : ∀ (fuel : Nat) (l : List Nat), l.length ≤ fuel →
    ∀ l', l' ∈ itertoolsPermsAux fuel l ↔ l'.Perm l := by
  intro fuel
  induction fuel with
  | zero =>
    intro l hl l'
    have h0 : l = [] := List.length_eq_zero.mp (Nat.le_zero.mp hl)
    subst h0
    show l' ∈ [[]] ↔ l'.Perm []
    simp
  | succ fuel ih =>
    intro l hl l'
    cases l with
    | nil =>
      show l' ∈ [[]] ↔ l'.Perm []
      simp
    | cons x xs =>
      show l' ∈ (selections (x :: xs)).flatMap _ ↔ _
      constructor
      · intro h
        rcases List.mem_flatMap.mp h with ⟨q, hq, hl'⟩
        rcases List.mem_map.mp hl' with ⟨t, ht, rfl⟩
        rcases sel_sound hq with ⟨hperm, hlen⟩
        have hlen2 : q.2.length ≤ fuel := by
          simp only [List.length_cons] at hl hlen
          omega
        have ht' : t.Perm q.2 := (ih q.2 hlen2 t).mp ht
        exact (List.Perm.cons q.1 ht').trans hperm
      · intro h
        have hne : l' ≠ [] := by
          intro h0
          subst h0
          have := h.length_eq
          simp at this
        obtain ⟨y, t, rfl⟩ := List.exists_cons_of_ne_nil hne
        rcases List.cons_perm_iff_perm_erase.mp h with ⟨hy, ht⟩
        have hlen2 : ((x :: xs).erase y).length ≤ fuel := by
          rw [List.length_erase_of_mem hy]
          simp only [List.length_cons] at hl ⊢
          omega
        exact List.mem_flatMap.mpr ⟨(y, (x :: xs).erase y), sel_complete hy,
          List.mem_map.mpr ⟨t, (ih _ hlen2 t).mpr ht, rfl⟩⟩

theorem mem_itertoolsPerms {l l' : List Nat} : l' ∈ itertoolsPerms l ↔ l'.Perm l :=
  perms_aux_mem l.length l (le_refl _) l'

/-! ### The permutation cost equals the specification's round-trip formula -/

/-- Cost of visiting `rest` starting from `prev` and returning to the
base index `0`: the tail of the accumulation loop of
`find_best_route_order`. -/
def walkCost (dm : Nat → Nat → ℚ) : Nat → List Nat → ℚ
  | prev, [] => dm prev 0
  | prev, idx :: rest => dm prev idx + walkCost dm idx rest

theorem routeCostAux_eq (dm : Nat → Nat → ℚ) : ∀ (p : List Nat) (c : ℚ) (prev : Nat),
    routeCostAux dm c prev p = c + walkCost dm prev p := by
  intro p
  induction p with
  | nil => intro c prev; rfl
  | cons idx rest ih =>
    intro c prev
    show routeCostAux dm (c + dm prev idx) idx rest = c + (dm prev idx + walkCost dm idx rest)
    rw [ih, add_assoc]

theorem getLastD_irrel : ∀ (l : List Nat) (a d d' : Nat),
    (a :: l).getLastD d = (a :: l).getLastD d' := by
  intro l
  induction l with
  | nil => intro a d d'; rfl
  | cons b rest ih =>
    intro a d d'
    show (b :: rest).getLastD a = (b :: rest).getLastD a
    rfl

theorem walkCost_eq (dm : Nat → Nat → ℚ) : ∀ (rest : List Nat) (a : Nat),
    walkCost dm a rest = chainSum dm (a :: rest) + dm ((a :: rest).getLastD 0) 0 := by
  intro rest
  induction rest with
  | nil =>
    intro a
    show dm a 0 = 0 + dm a 0
    rw [zero_add]
  | cons b rest ih =>
    intro a
    show dm a b + walkCost dm b rest = dm a b + chainSum dm (b :: rest) +
      dm ((a :: b :: rest).getLastD 0) 0
    have hlast : (a :: b :: rest).getLastD 0 = (b :: rest).getLastD 0 := by
      show (b :: rest).getLastD a = (b :: rest).getLastD 0
      exact getLastD_irrel rest b a 0
    rw [hlast, ih b, add_assoc]

theorem routeCost_eq_spec (dm : Nat → Nat → ℚ) (p : List Nat) (hp : p ≠ []) :
    routeCost dm p = specTripCost dm p := by
  cases p with
  | nil => exact absurd rfl hp
  | cons a rest =>
    show routeCostAux dm 0 0 (a :: rest) = _
    rw [show routeCostAux dm 0 0 (a :: rest) = routeCostAux dm (0 + dm 0 a) a rest from rfl,
      routeCostAux_eq, walkCost_eq]
    show 0 + dm 0 a + (chainSum dm (a :: rest) + dm ((a :: rest).getLastD 0) 0) = _
    rw [zero_add, ← add_assoc]
    rfl

/-! ### The strict-minimum fold -/

theorem foldl_best_aux {α β : Type} (c : α → Option ℚ) (pay : α → β) :
    ∀ (l : List α) (b : β) (cb : ℚ), (∀ x ∈ l, ∃ q, c x = some q) →
      ∃ b' cb',
        l.foldl (fun best x => if optLtOpt (c x) best.2 then (some (pay x), c x) else best)
          (some b, some cb) = (some b', some cb') ∧
        ((b' = b ∧ cb' = cb) ∨ (∃ x ∈ l, b' = pay x ∧ c x = some cb')) ∧
        cb' ≤ cb ∧ (∀ x ∈ l, ∀ q, c x = some q → cb' ≤ q) := by
  intro l
  induction l with
  | nil =>
    intro b cb _
    exact ⟨b, cb, rfl, Or.inl ⟨rfl, rfl⟩, le_refl _, fun x hx => absurd hx (List.not_mem_nil x)⟩
  | cons x xs ih =>
    intro b cb hc
    obtain ⟨q, hq⟩ := hc x (List.mem_cons_self x xs)
    by_cases hlt : optLtOpt (c x) (some cb) = true
    · have hqcb : q < cb := by
        rw [hq] at hlt
        exact of_decide_eq_true hlt
      have hstep : (if optLtOpt (c x) (some cb) = true then (some (pay x), c x)
          else (some b, some cb)) = (some (pay x), some q) := by
        rw [if_pos hlt, hq]
      obtain ⟨b', cb', heq, hsrc, hle, hmin⟩ :=
        ih (pay x) q (fun y hy => hc y (List.mem_cons_of_mem x hy))
      refine ⟨b', cb', ?_, ?_, ?_, ?_⟩
      · show List.foldl _ (if optLtOpt (c x) (some cb) = true then (some (pay x), c x)
          else (some b, some cb)) xs = _
        rw [hstep]
        exact heq
      · rcases hsrc with ⟨hb, hcb⟩ | ⟨y, hy, hb, hcy⟩
        · exact Or.inr ⟨x, List.mem_cons_self x xs, hb, by rw [hq, hcb]⟩
        · exact Or.inr ⟨y, List.mem_cons_of_mem x hy, hb, hcy⟩
      · exact le_trans hle (le_of_lt hqcb)
      · intro y hy q' hq'
        rcases List.mem_cons.mp hy with h1 | h1
        · subst h1
          rw [hq] at hq'
          exact (Option.some.inj hq') ▸ hle
        · exact hmin y h1 q' hq'
    · have hcble : cb ≤ q := by
        rw [hq] at hlt
        have : ¬ q < cb := fun hqq => hlt (decide_eq_true hqq)
        exact le_of_not_lt this
      have hstep : (if optLtOpt (c x) (some cb) = true then (some (pay x), c x)
          else (some b, some cb)) = (some b, some cb) := by
        rw [if_neg hlt]
      obtain ⟨b', cb', heq, hsrc, hle, hmin⟩ :=
        ih b cb (fun y hy => hc y (List.mem_cons_of_mem x hy))
      refine ⟨b', cb', ?_, ?_, hle, ?_⟩
      · show List.foldl _ (if optLtOpt (c x) (some cb) = true then (some (pay x), c x)
          else (some b, some cb)) xs = _
        rw [hstep]
        exact heq
      · rcases hsrc with ⟨hb, hcb⟩ | ⟨y, hy, hb, hcy⟩
        · exact Or.inl ⟨hb, hcb⟩
        · exact Or.inr ⟨y, List.mem_cons_of_mem x hy, hb, hcy⟩
      · intro y hy q' hq'
        rcases List.mem_cons.mp hy with h1 | h1
        · subst h1
          rw [hq] at hq'
          exact (Option.some.inj hq') ▸ le_trans hle hcble
        · exact hmin y h1 q' hq'

theorem foldl_best {α β : Type} (c : α → Option ℚ) (pay : α → β) (l : List α) (hl : l ≠ [])
    (hc : ∀ x ∈ l, ∃ q, c x = some q) :
    ∃ m cm, m ∈ l ∧ c m = some cm ∧
      l.foldl (fun best x => if optLtOpt (c x) best.2 then (some (pay x), c x) else best)
        (none, none) = (some (pay m), some cm) ∧
      ∀ x ∈ l, ∀ q, c x = some q → cm ≤ q := by
  cases l with
  | nil => exact absurd rfl hl
  | cons x xs =>
    obtain ⟨q, hq⟩ := hc x (List.mem_cons_self x xs)
    have hstep : (if optLtOpt (c x) (none : Option ℚ) = true then (some (pay x), c x)
        else ((none : Option β), (none : Option ℚ))) = (some (pay x), some q) := by
      rw [hq]
      rfl
    obtain ⟨b', cb', heq, hsrc, hle, hmin⟩ :=
      foldl_best_aux c pay xs (pay x) q (fun y hy => hc y (List.mem_cons_of_mem x hy))
    have hres : (x :: xs).foldl
        (fun best y => if optLtOpt (c y) best.2 then (some (pay y), c y) else best)
        (none, none) = (some b', some cb') := by
      show List.foldl _ (if optLtOpt (c x) (none : Option ℚ) = true then (some (pay x), c x)
          else ((none : Option β), (none : Option ℚ))) xs = _
      rw [hstep]
      exact heq
    rcases hsrc with ⟨hb, hcb⟩ | ⟨y, hy, hb, hcy⟩
    · refine ⟨x, cb', List.mem_cons_self x xs, by rw [hq, hcb], by rw [hres, hb], ?_⟩
      · intro z hz q' hq'
        rcases List.mem_cons.mp hz with h1 | h1
        · subst h1
          rw [hq] at hq'
          exact (Option.some.inj hq') ▸ (hcb ▸ hle)
        · exact hmin z h1 q' hq'
    · refine ⟨y, cb', List.mem_cons_of_mem x hy, hcy, by rw [hres, hb], ?_⟩
      · intro z hz q' hq'
        rcases List.mem_cons.mp hz with h1 | h1
        · subst h1
          rw [hq] at hq'
          exact (Option.some.inj hq') ▸ hle
        · exact hmin z h1 q' hq'

/-- Characterization of `find_best_route_order`: it returns a concrete
order and cost; the order is a permutation of the subset, the cost is the
specification's round-trip formula on that order, and no permutation of
the subset does better. -/
theorem fbro_spec (dm : Nat → Nat → ℚ) (subset : List Nat) :
    ∃ o cst, find_best_route_order dm subset = (some o, some cst) ∧
      o.Perm subset ∧ cst = specTripCost dm o ∧
      ∀ σ, σ.Perm subset → cst ≤ specTripCost dm σ := by
  by_cases hs : subset.length = 0
  · have h0 : subset = [] := List.length_eq_zero.mp hs
    subst h0
    refine ⟨[], 0, ?_, List.Perm.refl _, rfl, ?_⟩
    · rfl
    · intro σ hσ
      have : σ = [] := List.perm_nil.mp hσ
      subst this
      exact le_refl _
  · have hne : subset ≠ [] := fun h0 => hs (by rw [h0]; rfl)
    have hlne : itertoolsPerms subset ≠ [] := by
      intro h0
      have hmem : subset ∈ itertoolsPerms subset := mem_itertoolsPerms.mpr (List.Perm.refl _)
      rw [h0] at hmem
      cases hmem
    have hbridge : find_best_route_order dm subset =
        (itertoolsPerms subset).foldl
          (fun best x => if optLtOpt ((fun p => some (routeCost dm p)) x) best.2
            then (some ((fun p : List Nat => p) x), (fun p => some (routeCost dm p)) x)
            else best)
          (none, none) := by
      unfold find_best_route_order
      rw [if_neg hs]
      apply foldl_congr_fun
      intro acc x
      rcases acc with ⟨b, bc⟩
      cases bc <;> rfl
    obtain ⟨m, cm, hm, hcm, heq, hmin⟩ := foldl_best (fun p => some (routeCost dm p))
      (fun p : List Nat => p) (itertoolsPerms subset) hlne (fun x _ => ⟨routeCost dm x, rfl⟩)
    have hmperm : m.Perm subset := mem_itertoolsPerms.mp hm
    have hmne : m ≠ [] := by
      intro h0
      subst h0
      exact hne (List.perm_nil.mp hmperm.symm)
    have hcmval : cm = routeCost dm m := (Option.some.inj hcm).symm
    refine ⟨m, cm, ?_, hmperm, ?_, ?_⟩
    · rw [hbridge]
      exact heq
    · rw [hcmval, routeCost_eq_spec dm m hmne]
    · intro σ hσ
      have hσm : σ ∈ itertoolsPerms subset := mem_itertoolsPerms.mpr hσ
      have hσne : σ ≠ [] := by
        intro h0
        subst h0
        exact hne (List.perm_nil.mp hσ.symm)
      have hbound := hmin σ hσm (routeCost dm σ) rfl
      rw [routeCost_eq_spec dm σ hσne] at hbound
      exact hbound

/-! ### C2: the dispatch optimizer -/

unseal Rat.add in
/-- C2.  The optimizer enumerates all `2^n` bitmask splits of the sites
and, per subset, all permutations, scoring each order with the
round-trip cost `dm[0][first] + Σ dm[prev][next] + dm[last][0]`
(`specTripCost`), and returns a bitmask partition together with
per-subset orders achieving the minimum total of the two subset costs.
On the concrete scenario with origin `O` (index 0) and sites `P1`, `P2`
(indices 1, 2) at distances `O-P1 = 3`, `O-P2 = 5`, `P1-P2 = 2`, it
selects the arrangement where one responder takes both sites in order
`P1, P2` for a round-trip total of `10`, beating the one-each split of
cost `16`. -/
theorem C2_optimizer_minimizes :
    (∀ (dm : Nat → Nat → ℚ) (n : Nat), n ≤ 6 →
      ∃ p1 p2 o1 o2 cst,
        find_best_partition_and_routes dm n = (some ((p1, p2), (some o1, some o2)), some cst) ∧
        (∃ mask, mask < 2 ^ n ∧ p1 = maskSubset1 n mask ∧ p2 = maskSubset2 n mask) ∧
        o1.Perm p1 ∧ o2.Perm p2 ∧
        cst = specTripCost dm o1 + specTripCost dm o2 ∧
        ∀ mask < 2 ^ n, ∀ σ1 σ2 : List Nat, σ1.Perm (maskSubset1 n mask) →
          σ2.Perm (maskSubset2 n mask) →
          cst ≤ specTripCost dm σ1 + specTripCost dm σ2) ∧
    find_best_partition_and_routes dmEx 2 =
      (some (([], [1, 2]), (some [], some [1, 2])), some 10) := by
  constructor
  · intro dm n _
    have hcost : ∀ mask ∈ List.range (2 ^ n), ∃ q, partitionCost dm n mask = some q := by
      intro mask _
      obtain ⟨o1, c1, he1, _, _, _⟩ := fbro_spec dm (maskSubset1 n mask)
      obtain ⟨o2, c2, he2, _, _, _⟩ := fbro_spec dm (maskSubset2 n mask)
      refine ⟨c1 + c2, ?_⟩
      unfold partitionCost
      rw [he1, he2]
      rfl
    have hrne : List.range (2 ^ n) ≠ [] := by
      intro h0
      have h2 : (0 : Nat) < 2 ^ n := Nat.pos_pow_of_pos n (by norm_num)
      have := List.range_eq_nil.mp h0
      omega
    obtain ⟨mk, cm, hmk, hcm, heq, hmin⟩ := foldl_best (partitionCost dm n)
      (partitionPayload dm n) (List.range (2 ^ n)) hrne hcost
    obtain ⟨o1, c1, he1, hp1, hs1, hm1⟩ := fbro_spec dm (maskSubset1 n mk)
    obtain ⟨o2, c2, he2, hp2, hs2, hm2⟩ := fbro_spec dm (maskSubset2 n mk)
    have hcmval : cm = c1 + c2 := by
      have hval : partitionCost dm n mk = some (c1 + c2) := by
        unfold partitionCost
        rw [he1, he2]
        rfl
      rw [hval] at hcm
      exact (Option.some.inj hcm).symm
    have hpay : partitionPayload dm n mk =
        ((maskSubset1 n mk, maskSubset2 n mk), (some o1, some o2)) := by
      unfold partitionPayload
      rw [he1, he2]
    refine ⟨maskSubset1 n mk, maskSubset2 n mk, o1, o2, cm, ?_,
      ⟨mk, List.mem_range.mp hmk, rfl, rfl⟩, hp1, hp2, ?_, ?_⟩
    · show find_best_partition_and_routes dm n = _
      unfold find_best_partition_and_routes
      rw [show (List.range (2 ^ n)).foldl
          (fun best mask => if optLtOpt (partitionCost dm n mask) best.2
            then (some (partitionPayload dm n mask), partitionCost dm n mask)
            else best) (none, none)
          = (some (partitionPayload dm n mk), some cm) from heq, hpay]
    · rw [hcmval, hs1, hs2]
    · intro mask hmask σ1 σ2 hσ1 hσ2
      obtain ⟨o1', c1', he1', _, _, hm1'⟩ := fbro_spec dm (maskSubset1 n mask)
      obtain ⟨o2', c2', he2', _, _, hm2'⟩ := fbro_spec dm (maskSubset2 n mask)
      have hco : partitionCost dm n mask = some (c1' + c2') := by
        unfold partitionCost
        rw [he1', he2']
        rfl
      have h1 := hmin mask (List.mem_range.mpr hmask) (c1' + c2') hco
      exact le_trans h1 (add_le_add (hm1' σ1 hσ1) (hm2' σ2 hσ2))
  · decide

unseal Rat.add in
/-- C2 witness: the general statement applied at the concrete scenario's
distance table with `n = 2` sites. -/
theorem C2_optimizer_minimizes_witness :
    ∃ p1 p2 o1 o2 cst,
      find_best_partition_and_routes dmEx 2 = (some ((p1, p2), (some o1, some o2)), some cst) ∧
      (∃ mask, mask < 2 ^ 2 ∧ p1 = maskSubset1 2 mask ∧ p2 = maskSubset2 2 mask) ∧
      o1.Perm p1 ∧ o2.Perm p2 ∧
      cst = specTripCost dmEx o1 + specTripCost dmEx o2 ∧
      ∀ mask < 2 ^ 2, ∀ σ1 σ2 : List Nat, σ1.Perm (maskSubset1 2 mask) →
        σ2.Perm (maskSubset2 2 mask) →
        cst ≤ specTripCost dmEx σ1 + specTripCost dmEx σ2 :=
  C2_optimizer_minimizes.1 dmEx 2 (by norm_num)

end EmergencyDijkstra
